import Mathlib

/-!
Verification of src/libdisk/lemmings.c (the Lemmings custom track codec).

The file contains a shallow embedding of the two functions of the source,
`lemmings_write_mfm` (the decoder: flux bitstream to sector block) and
`lemmings_read_mfm` (the encoder: sector block to flux bitstream), together
with models of the two external collaborators they use (the bit-stream
reader and the track-buffer writer), which are not part of the repository
sources and are therefore modelled from the specification.

Conventions of the embedding:
* Machine integers are `Nat` with explicit reductions modulo powers of two
  where the C code relies on fixed-width overflow.
* A 16-bit memory cell (an element of `uint16_t dat[]` or of the decoded
  block) is represented by the integer value of its two bytes read in
  big-endian (network) order.  Under this representation `htons` and
  `ntohs` are the identity: `raw_dat[j] = htons(v)` stores the
  representative `v`, and `ntohs(cell)` reads the representative back.
  The block is hence a `List Nat` of 3072 cells (6 sectors of 512 cells,
  1024 bytes each).
* Bit streams are `List Bool`, most significant bit first.
-/

/-- Value of a bit list read most-significant-bit first. -/
def valBits : List Bool → Nat
  | [] => 0
  | b :: l => (if b then 2 ^ l.length else 0) + valBits l

/-- Modelled from the spec: the generic bit-stream reader (section 6 of the
spec: fetch next single bit with an end-of-stream sentinel, a raw
accumulated word value, and a monotonically increasing index-relative
bit-position counter).  `bits` is the remaining input, `word` the 32-bit
shift register `s->word`, and `pos` the number of bits consumed so far;
the C counter `s->index_offset` holds the zero-based offset of the bit
most recently consumed, i.e. `pos - 1`. -/
structure MStream where
  bits : List Bool
  word : Nat
  pos : Nat
deriving DecidableEq

/-- Modelled from the spec: `stream_next_bit` shifts the next input bit
into the 32-bit accumulator and advances the position counter, returning
the end-of-stream sentinel (`none`, the C value -1) at exhaustion. -/
def stream_next_bit (s : MStream) : Option MStream :=
  match s.bits with
  | [] => none
  | b :: rest =>
      some ⟨rest, (s.word * 2 + (if b then 1 else 0)) % 2 ^ 32, s.pos + 1⟩

/-- Modelled from the spec: `stream_next_bits(s, n)` fetches the next `n`
bits (the sentinel propagates). -/
def stream_next_bits : Nat → MStream → Option MStream
  | 0, s => some s
  | n + 1, s => (stream_next_bit s).bind (stream_next_bits n)

/-- Fresh stream over a bit list (accumulator empty, position zero). -/
def mkStream (l : List Bool) : MStream := ⟨l, 0, 0⟩

/-! ## Decoder data -/

/-- Per-step wraparound 16-bit checksum of a list of cells, exactly the C
loop `uint16_t c = 0; for (k) c += ntohs(sec[k]);`. -/
def csum16 (ws : List Nat) : Nat :=
  ws.foldl (fun c w => (c + w) % 2 ^ 16) 0

/-- Bitwise complement on a 16-bit value (`csum = ~csum` on `uint16_t`). -/
def cmpl16 (x : Nat) : Nat := 65535 - x

/-- Sentinel-filled decode buffer: the C code fills the 6144-byte block
with the repeating four-byte tag "NLEM", i.e. 1536 copies of the two cells
0x4E4C ("NL") and 0x454D ("EM") in the big-endian cell representation. -/
def initBlock : List Nat := (List.replicate 1536 [0x4E4C, 0x454D]).flatten

/-- One demodulation step of the decoder (the body of the first j-loop of
`lemmings_write_mfm`): one 32-bit stream read; `e` is the upper and `o`
the lower 16-bit half of `s->word`, and the reconstructed cell is
`htons(((e & 0x5555) << 1) | (o & 0x5555))` (identity `htons` in the
big-endian cell representation). -/
def demod32 (w : Nat) : Nat :=
  (w / 2 ^ 16 % 2 ^ 16 &&& 0x5555) <<< 1 ||| (w % 2 ^ 16 &&& 0x5555)

/-- One iteration of the demodulation loop: read 32 bits, reconstruct one
16-bit cell.  Fails (goto done) when the stream is exhausted. -/
def demodStep (s : MStream) : Option (Nat × MStream) :=
  match stream_next_bits 32 s with
  | none => none
  | some s1 => some (demod32 s1.word, s1)

/-- The demodulation loop `for (j = 0; j < 6*513; j++)` of the decoder,
producing the `raw_dat` cell list. -/
def demodBlock : Nat → MStream → Option (List Nat × MStream)
  | 0, s => some ([], s)
  | n + 1, s =>
      match demodStep s with
      | none => none
      | some (w, s1) =>
          match demodBlock n s1 with
          | none => none
          | some (ws, s2) => some (w :: ws, s2)

/-- Sector slot `j` of a block: cells `j*512 .. j*512+511` (1024 bytes). -/
def slot (l : List Nat) (j : Nat) : List Nat := (l.drop (j * 512)).take 512

/-- Overwrite sector slot `j` of a block (the `memcpy(&block[j*1024], sec,
1024)` of the decoder). -/
def setSlot (block : List Nat) (j : Nat) (body : List Nat) : List Nat :=
  block.take (j * 512) ++ body ++ block.drop (j * 512 + 512)

/-- The per-sector validation loop of the decoder, `for (j = 0; j < 6;
j++)`: `j` is the sector index, the first component of the result the
block, the second `valid_blocks` and the third `nr_valid`.  The fuel
argument counts the remaining sectors (the loop runs while `j < 6`). -/
def valGo (raw : List Nat) : Nat → Nat → List Nat → Nat → Nat →
    List Nat × Nat × Nat
  | 0, _, block, valid, nr => (block, valid, nr)
  | n + 1, j, block, valid, nr =>
      let csum := (raw.drop (j * 513)).headD 0
      let body := (raw.drop (j * 513 + 1)).take 512
      if csum16 body = csum then
        valGo raw n (j + 1) (setSlot block j body) (valid ||| 1 <<< j) (nr + 1)
      else
        valGo raw n (j + 1) block valid nr

/-- Checksum validation and sector assembly over a demodulated `raw_dat`
list (lines 66-78 of the source). -/
def validateSectors (raw block : List Nat) (valid : Nat) :
    List Nat × Nat × Nat :=
  valGo raw 6 0 block valid 0

/-- Track header metadata manipulated by the handlers. -/
structure TrackHeader where
  data_bitoff : Nat
  total_bits : Nat
  bytes_per_sector : Nat
  nr_sectors : Nat
  len : Nat
  valid_map : Nat
deriving DecidableEq

/-- State of the decoder main loop.  `block`, `valid` and `bitoff` are the
variables `block`, `valid_blocks` and `th->data_bitoff` of the source.
The remaining three fields are ghost observations that do not influence
the computation and exist only to state scanning properties: `tested`
records the positions (values of `pos`) at which the candidate test
`(uint16_t)s->word != 0x4489` was evaluated, `syncs` records every value
`idx_off = s->index_offset - 15` computed at a confirmed synchronization
match, and `eos` records that the loop terminated because the stream was
exhausted (any of the three `-1`/goto-done exits). -/
structure DecState where
  block : List Nat
  valid : Nat
  bitoff : Nat
  tested : List Nat
  syncs : List Nat
  eos : Bool
deriving DecidableEq

/-- The main scan-and-decode loop of `lemmings_write_mfm` (lines 39-82).
One unit of fuel is one loop iteration; every iteration consumes at least
one stream bit, so the fuel `s.bits.length + 1` used by `decodeRun` never
runs out.  The C loop condition evaluates `stream_next_bit` before
testing `valid_blocks != 63`, which the match order reproduces.  The
computation `idx_off = s->index_offset - 15` is 32-bit unsigned
arithmetic on `index_offset = pos - 1`. -/
def decLoop : Nat → MStream → DecState → DecState
  | 0, _, st => st
  | fuel + 1, s, st =>
      match stream_next_bit s with
      | none => { st with eos := true }
      | some s1 =>
          if st.valid = 63 then st
          else
            let st1 := { st with tested := st.tested ++ [s1.pos] }
            if s1.word % 2 ^ 16 ≠ 0x4489 then decLoop fuel s1 st1
            else
              let idx := (s1.pos - 1 + (2 ^ 32 - 15)) % 2 ^ 32
              match stream_next_bits 32 s1 with
              | none => { st1 with eos := true }
              | some s2 =>
                  if s2.word ≠ 0x552aaaaa then decLoop fuel s2 st1
                  else
                    let st2 := { st1 with syncs := st1.syncs ++ [idx] }
                    match demodBlock 3078 s2 with
                    | none => { st2 with eos := true }
                    | some (raw, s3) =>
                        let r := validateSectors raw st2.block st2.valid
                        let st3 := { st2 with
                          block := r.1
                          valid := r.2.1
                          bitoff := if r.2.2 ≠ 0 then idx else st2.bitoff }
                        decLoop fuel s3 st3

/-- Initial decoder state: sentinel-filled block, no valid sectors. -/
def initState (th : TrackHeader) : DecState :=
  ⟨initBlock, 0, th.data_bitoff, [], [], false⟩

/-- The decoder loop run to completion on a stream. -/
def decodeRun (s : MStream) (th : TrackHeader) : DecState :=
  decLoop (s.bits.length + 1) s (initState th)

/-- The decoder `lemmings_write_mfm`: returns `none` (the C `NULL` after
freeing the block) when no sector validated, otherwise the block and the
finalized header (`bytes_per_sector = 1024`, `nr_sectors = 6`,
`len = 6 * 1024`, and the validity map stored by
`write_valid_sector_map`). -/
def lemmings_write_mfm (s : MStream) (th : TrackHeader) :
    Option (List Nat × TrackHeader) :=
  let st := decodeRun s th
  if st.valid = 0 then none
  else some (st.block,
    { th with
      data_bitoff := st.bitoff
      bytes_per_sector := 1024
      nr_sectors := 6
      len := 6 * 1024
      valid_map := st.valid })

/-! ## Encoder -/

/-- Data classes of the track-buffer writer (the `TBUFDAT_*` tags). -/
inductive TbufTag
  | raw
  | all
  | even
  | odd
deriving DecidableEq

/-- One `tbuf_bits(tbuf, DEFAULT_SPEED, tag, nbits, value)` call.  Every
call of the encoder passes `DEFAULT_SPEED`, so the speed argument is
omitted from the model. -/
structure Emission where
  tag : TbufTag
  nbits : Nat
  value : Nat
deriving DecidableEq

/-- Emissions for the 512 data cells of one sector, each cell emitted once
per plane tag (lines 124-129 of the source, with `ntohs(*dat)` the
identity in the big-endian cell representation). -/
def wordEmissions : List Nat → List Emission
  | [] => []
  | w :: ws => ⟨.even, 16, w⟩ :: ⟨.odd, 16, w⟩ :: wordEmissions ws

/-- The per-sector emission loop `for (i = 0; i < 6; i++)` of
`lemmings_read_mfm`: checksum over the next 512 cells, complemented when
the validity bit of sector `i` is clear, emitted on both planes, followed
by the 512 cells; the `dat` pointer then advances by 512 cells.  The fuel
argument counts the remaining sectors. -/
def secEmit (v : Nat) : Nat → Nat → List Nat → List Emission
  | 0, _, _ => []
  | n + 1, i, dat =>
      let csum0 := csum16 (dat.take 512)
      let csum := if v &&& 1 <<< i = 0 then cmpl16 csum0 else csum0
      ⟨.even, 16, csum⟩ :: ⟨.odd, 16, csum⟩ ::
        (wordEmissions (dat.take 512) ++ secEmit v n (i + 1) (dat.drop 512))

/-- The full emission sequence of `lemmings_read_mfm` (lines 112-130):
the raw 16-bit mark word 0x4489, the MFM-coded word 0xf000 (whose cells
are the documented raw pattern 0x552a,0xaaaa), then the six sectors. -/
def lemmingsEmissions (dat : List Nat) (v : Nat) : List Emission :=
  ⟨.raw, 16, 0x4489⟩ :: ⟨.all, 16, 0xf000⟩ :: secEmit v 6 0 dat

/-! ## Modulation layer (track-buffer writer)

Modelled from the spec: the track-buffer writer (section 6) renders each
emission into raw flux cells; tag values distinguish raw framing bits,
even-plane data, odd-plane data and generic bits.  Generic (`all`) data
is MFM coded, one clock cell before each data cell, the clock being set
between two zero data bits; the writer keeps the last data bit written
across calls.  An even-plane (resp. odd-plane) 16-bit emission carries
the odd-position (resp. even-position) bits of its value as the data
cells of 16 raw cells, which is the inverse of the interleaving
`((e & 0x5555) << 1) | (o & 0x5555)` performed by the decoder. -/

/-- Big-endian bit list of the low `n` bits of `x`. -/
def natBits (n x : Nat) : List Bool :=
  (List.range n).map (fun i => x.testBit (n - 1 - i))

/-- MFM clocking: one clock cell before each data cell, clock set exactly
between two zero data bits.  `prev` is the previous data bit. -/
def mfmClocked (prev : Bool) : List Bool → List Bool
  | [] => []
  | b :: rest => (!prev && !b) :: b :: mfmClocked b rest

/-- Data bits of the even plane of a 16-bit word: its odd-position bits,
most significant first. -/
def evenDataBits (w : Nat) : List Bool :=
  (List.range 8).map (fun k => w.testBit (15 - 2 * k))

/-- Data bits of the odd plane of a 16-bit word: its even-position bits,
most significant first. -/
def oddDataBits (w : Nat) : List Bool :=
  (List.range 8).map (fun k => w.testBit (14 - 2 * k))

/-- Modelled from the spec: cells and updated last-data-bit state of one
emission. -/
def emitBits (prev : Bool) (e : Emission) : List Bool × Bool :=
  match e.tag with
  | .raw => (natBits e.nbits e.value, (natBits e.nbits e.value).getLastD prev)
  | .all => (mfmClocked prev (natBits e.nbits e.value),
      (natBits e.nbits e.value).getLastD prev)
  | .even => (mfmClocked prev (evenDataBits e.value),
      (evenDataBits e.value).getLastD prev)
  | .odd => (mfmClocked prev (oddDataBits e.value),
      (oddDataBits e.value).getLastD prev)

/-- Modelled from the spec: the cells produced by a sequence of emissions,
threading the last-data-bit state. -/
def modulate (prev : Bool) : List Emission → List Bool
  | [] => []
  | e :: es => (emitBits prev e).1 ++ modulate (emitBits prev e).2 es

/-- The encoder `lemmings_read_mfm` as a raw cell stream: the emissions of
the source rendered by the track-buffer writer. -/
def lemmings_read_mfm (dat : List Nat) (v : Nat) : List Bool :=
  modulate false (lemmingsEmissions dat v)

/-- The logical 16-bit word sequence rendered by the encoder after the
synchronization header: for each remaining sector the (complemented when
invalid) checksum word followed by its 512 data cells.  This is the
word-level view of the emissions of `secEmit`, identified with them by
`secEmit_eq_wordEmissions`. -/
def encWords (v : Nat) : Nat → Nat → List Nat → List Nat
  | 0, _, _ => []
  | n + 1, i, dat =>
      (if v &&& 1 <<< i = 0 then cmpl16 (csum16 (dat.take 512))
        else csum16 (dat.take 512))
        :: (dat.take 512 ++ encWords v n (i + 1) (dat.drop 512))


/-- Bits of `v` in the index window `[j, j+n)`, as accumulated by the
`valid_blocks |= 1u << j` updates of the validation loop. -/
def maskBits (v : Nat) : Nat → Nat → Nat
  | 0, _ => 0
  | n + 1, j => (if v &&& 1 <<< j = 0 then 0 else 1 <<< j)
      ||| maskBits v n (j + 1)

/-- Number of set bits of `v` in the index window `[j, j+n)`. -/
def cntBits (v : Nat) : Nat → Nat → Nat
  | 0, _ => 0
  | n + 1, j => (if v &&& 1 <<< j = 0 then 0 else 1) + cntBits v n (j + 1)


/-- Positions `p+1, p+2, ..., p+n`: the positions at which the candidate
test runs while the scan consumes `n` bits starting from position `p`. -/
def scanPositions (p : Nat) : Nat → List Nat
  | 0 => []
  | n + 1 => (p + 1) :: scanPositions (p + 1) n


/-- Number of sector groups of `raw` in the index window `[j, j+n)` whose
body checksum matches their leading checksum word: the total of the
`nr_valid++` increments of the validation loop. -/
def matchCount (raw : List Nat) : Nat → Nat → Nat
  | 0, _ => 0
  | n + 1, j =>
      (if csum16 ((raw.drop (j * 513 + 1)).take 512)
          = (raw.drop (j * 513)).headD 0 then 1 else 0)
        + matchCount raw n (j + 1)

/-- The emission sequence of the encoder as the specification words it: the
16-bit mark word as raw bits, the second mark word, then for each of the 6
sectors in order the (complemented when the validity bit is unset)
checksum word as two identical full-width emissions tagged even and odd,
followed by the 512 data words in original sequence order, each emitted
once per plane tag.  Stated from the spec, for comparison with
`lemmingsEmissions`, which is translated from the source. -/
def secSpec (v a : Nat) (body : List Nat) : List Emission :=
  (⟨.even, 16, if v.testBit a = true
      then csum16 body else cmpl16 (csum16 body)⟩ : Emission)
    :: ⟨.odd, 16, if v.testBit a = true
        then csum16 body else cmpl16 (csum16 body)⟩
    :: (body.map (fun w => [(⟨.even, 16, w⟩ : Emission), ⟨.odd, 16, w⟩])).flatten

def specEmissions (dat : List Nat) (v : Nat) : List Emission :=
  ⟨.raw, 16, 0x4489⟩ :: ⟨.all, 16, 0xf000⟩ ::
    ((List.range 6).map
      (fun t => secSpec v t ((dat.drop (512 * t)).take 512))).flatten

/-! ## Basic lemmas: bit values and the stream reader -/

theorem valBits_lt (l : List Bool) : valBits l < 2 ^ l.length := by
  induction l with
  | nil => simp [valBits]
  | cons b l ih =>
      simp only [valBits, List.length_cons, pow_succ]
      split <;> omega

theorem valBits_append (A B : List Bool) :
    valBits (A ++ B) = valBits A * 2 ^ B.length + valBits B := by
  induction A with
  | nil => simp [valBits]
  | cons b A ih =>
      rw [List.cons_append]
      show (if b then 2 ^ (A ++ B).length else 0) + valBits (A ++ B) =
        ((if b then 2 ^ A.length else 0) + valBits A) * 2 ^ B.length + valBits B
      rw [ih, List.length_append, pow_add]
      split <;> ring

theorem testBit_valBits (l : List Bool) (j : Nat) (h : j < l.length) :
    (valBits l).testBit j = l.getD (l.length - 1 - j) false := by
  induction l with
  | nil => simp at h
  | cons b l ih =>
      rcases Nat.lt_or_ge j l.length with hj | hj
      · have hv := valBits_lt l
        have hmod : valBits (b :: l) % 2 ^ l.length = valBits l := by
          show ((if b then 2 ^ l.length else 0) + valBits l) % 2 ^ l.length = valBits l
          split
          · rw [Nat.add_mod_left, Nat.mod_eq_of_lt hv]
          · rw [Nat.zero_add, Nat.mod_eq_of_lt hv]
        have hthis := Nat.testBit_mod_two_pow (valBits (b :: l)) l.length j
        rw [hmod] at hthis
        have hd : decide (j < l.length) = true := by simpa using hj
        rw [hd, Bool.true_and] at hthis
        rw [← hthis, ih hj]
        have hidx : (b :: l).length - 1 - j = (l.length - 1 - j) + 1 := by
          rw [List.length_cons]; omega
        rw [hidx]
        simp
      · have hj' : j = l.length := by rw [List.length_cons] at h; omega
        subst hj'
        have hv := valBits_lt l
        have hdiv : valBits (b :: l) / 2 ^ l.length = if b then 1 else 0 := by
          show ((if b then 2 ^ l.length else 0) + valBits l) / 2 ^ l.length =
            if b then 1 else 0
          split
          · rw [Nat.add_comm, Nat.add_div_right _ (Nat.pos_pow_of_pos _ (by omega)),
              Nat.div_eq_of_lt hv]
          · rw [Nat.zero_add, Nat.div_eq_of_lt hv]
        rw [Nat.testBit_to_div_mod, hdiv]
        have hidx : (b :: l).length - 1 - l.length = 0 := by
          rw [List.length_cons]; omega
        rw [hidx]
        cases b <;> simp

theorem testBit_valBits16 (L : List Bool) (hL : L.length = 16) (j : Nat)
    (hj : j < 16) : (valBits L).testBit j = L.getD (15 - j) false := by
  have h := testBit_valBits L j (by omega)
  rw [hL] at h
  have h15 : 16 - 1 - j = 15 - j := by omega
  rw [h15] at h
  exact h

theorem stream_next_bits_append (l r : List Bool) (w p : Nat)
    (hw : w < 2 ^ 32) :
    stream_next_bits l.length ⟨l ++ r, w, p⟩ =
      some ⟨r, (w * 2 ^ l.length + valBits l) % 2 ^ 32, p + l.length⟩ := by
  induction l generalizing w p with
  | nil =>
      show some (⟨[] ++ r, w, p⟩ : MStream) = _
      rw [List.nil_append]
      have h0 : (w * 2 ^ (List.length ([] : List Bool)) + valBits []) % 2 ^ 32
          = w := by
        show (w * 1 + 0) % 2 ^ 32 = w
        rw [Nat.mul_one, Nat.add_zero, Nat.mod_eq_of_lt hw]
      rw [h0]
      rfl
  | cons b l ih =>
      rw [List.length_cons]
      have h1 : stream_next_bits (l.length + 1) ⟨(b :: l) ++ r, w, p⟩ =
          stream_next_bits l.length
            ⟨l ++ r, (w * 2 + (if b then 1 else 0)) % 2 ^ 32, p + 1⟩ := rfl
      rw [h1, ih _ _ (Nat.mod_lt _ (by norm_num))]
      have hword : ((w * 2 + (if b then 1 else 0)) % 2 ^ 32 * 2 ^ l.length
            + valBits l) % 2 ^ 32
          = (w * 2 ^ (l.length + 1) + valBits (b :: l)) % 2 ^ 32 := by
        have hm : (w * 2 + (if b then 1 else 0)) % 2 ^ 32
            ≡ w * 2 + (if b then 1 else 0) [MOD 2 ^ 32] := Nat.mod_modEq _ _
        have hm2 := (hm.mul_right (2 ^ l.length)).add_right (valBits l)
        have h3 : (w * 2 + (if b then 1 else 0)) * 2 ^ l.length + valBits l
            = w * 2 ^ (l.length + 1) + valBits (b :: l) := by
          show _ = w * 2 ^ (l.length + 1)
            + ((if b then 2 ^ l.length else 0) + valBits l)
          rw [pow_succ]
          cases b <;> simp <;> ring
        rw [← h3]
        exact hm2
      rw [hword]
      have hp : p + 1 + l.length = p + (l.length + 1) := by omega
      rw [hp]

theorem demod32_lt (w : Nat) : demod32 w < 2 ^ 16 := by
  apply Nat.or_lt_two_pow
  · have h := @Nat.and_le_right (w / 2 ^ 16 % 2 ^ 16) 0x5555
    rw [Nat.shiftLeft_eq]
    omega
  · have h := @Nat.and_le_right (w % 2 ^ 16) 0x5555
    omega

theorem demod32_split (E O : Nat) (hE : E < 2 ^ 16) (hO : O < 2 ^ 16) :
    demod32 (E * 2 ^ 16 + O) = (E &&& 0x5555) <<< 1 ||| (O &&& 0x5555) := by
  have hdiv : (E * 2 ^ 16 + O) / 2 ^ 16 % 2 ^ 16 = E := by
    rw [Nat.mul_comm, Nat.mul_add_div (by norm_num), Nat.div_eq_of_lt hO,
      Nat.add_zero, Nat.mod_eq_of_lt hE]
  have hmod : (E * 2 ^ 16 + O) % 2 ^ 16 = O := by
    rw [Nat.mul_comm, Nat.mul_add_mod, Nat.mod_eq_of_lt hO]
  show ((E * 2 ^ 16 + O) / 2 ^ 16 % 2 ^ 16 &&& 0x5555) <<< 1
      ||| ((E * 2 ^ 16 + O) % 2 ^ 16 &&& 0x5555) = _
  rw [hdiv, hmod]

theorem demod32_modCells (p : Bool) (w : Nat) (hw : w < 2 ^ 16) :
    demod32 (valBits (mfmClocked p (evenDataBits w)
      ++ mfmClocked (w.testBit 1) (oddDataBits w))) = w := by
  have hOlen : (mfmClocked (w.testBit 1) (oddDataBits w)).length = 16 := rfl
  have hElt : valBits (mfmClocked p (evenDataBits w)) < 2 ^ 16 := by
    have h := valBits_lt (mfmClocked p (evenDataBits w))
    rw [show (mfmClocked p (evenDataBits w)).length = 16 from rfl] at h
    exact h
  have hOlt : valBits (mfmClocked (w.testBit 1) (oddDataBits w)) < 2 ^ 16 := by
    have h := valBits_lt (mfmClocked (w.testBit 1) (oddDataBits w))
    rw [hOlen] at h
    exact h
  rw [valBits_append, hOlen, demod32_split _ _ hElt hOlt]
  set E := valBits (mfmClocked p (evenDataBits w)) with hE
  set O := valBits (mfmClocked (w.testBit 1) (oddDataBits w)) with hO
  have hEb : ∀ k, k < 16 → E.testBit k =
      (mfmClocked p (evenDataBits w)).getD (15 - k) false := fun k hk => by
    rw [hE]; exact testBit_valBits16 (mfmClocked p (evenDataBits w)) rfl k hk
  have hOb : ∀ k, k < 16 → O.testBit k =
      (mfmClocked (w.testBit 1) (oddDataBits w)).getD (15 - k) false :=
    fun k hk => by
    rw [hO]
    exact testBit_valBits16 (mfmClocked (w.testBit 1) (oddDataBits w)) rfl k hk
  have hEf0 : E.testBit 0 = w.testBit 1 := by
    rw [hEb 0 (by omega)]; exact rfl
  have hEf2 : E.testBit 2 = w.testBit 3 := by
    rw [hEb 2 (by omega)]; exact rfl
  have hEf4 : E.testBit 4 = w.testBit 5 := by
    rw [hEb 4 (by omega)]; exact rfl
  have hEf6 : E.testBit 6 = w.testBit 7 := by
    rw [hEb 6 (by omega)]; exact rfl
  have hEf8 : E.testBit 8 = w.testBit 9 := by
    rw [hEb 8 (by omega)]; exact rfl
  have hEf10 : E.testBit 10 = w.testBit 11 := by
    rw [hEb 10 (by omega)]; exact rfl
  have hEf12 : E.testBit 12 = w.testBit 13 := by
    rw [hEb 12 (by omega)]; exact rfl
  have hEf14 : E.testBit 14 = w.testBit 15 := by
    rw [hEb 14 (by omega)]; exact rfl
  have hOf0 : O.testBit 0 = w.testBit 0 := by
    rw [hOb 0 (by omega)]; exact rfl
  have hOf2 : O.testBit 2 = w.testBit 2 := by
    rw [hOb 2 (by omega)]; exact rfl
  have hOf4 : O.testBit 4 = w.testBit 4 := by
    rw [hOb 4 (by omega)]; exact rfl
  have hOf6 : O.testBit 6 = w.testBit 6 := by
    rw [hOb 6 (by omega)]; exact rfl
  have hOf8 : O.testBit 8 = w.testBit 8 := by
    rw [hOb 8 (by omega)]; exact rfl
  have hOf10 : O.testBit 10 = w.testBit 10 := by
    rw [hOb 10 (by omega)]; exact rfl
  have hOf12 : O.testBit 12 = w.testBit 12 := by
    rw [hOb 12 (by omega)]; exact rfl
  have hOf14 : O.testBit 14 = w.testBit 14 := by
    rw [hOb 14 (by omega)]; exact rfl
  apply Nat.eq_of_testBit_eq
  intro i
  rcases Nat.lt_or_ge i 16 with hi | hi
  · interval_cases i
    · simp only [Nat.testBit_lor, Nat.testBit_shiftLeft, Nat.testBit_land,
        show decide ((0:Nat) ≥ 1) = false from rfl,
        show Nat.testBit 21845 0 = true from rfl,
        hOf0, Bool.false_and, Bool.and_true, Bool.false_or]
    · simp only [Nat.testBit_lor, Nat.testBit_shiftLeft, Nat.testBit_land,
        show decide ((1:Nat) ≥ 1) = true from rfl,
        show (1:Nat) - 1 = 0 from rfl,
        show Nat.testBit 21845 0 = true from rfl,
        show Nat.testBit 21845 1 = false from rfl,
        hEf0, Bool.true_and, Bool.and_true, Bool.and_false, Bool.or_false]
    · simp only [Nat.testBit_lor, Nat.testBit_shiftLeft, Nat.testBit_land,
        show decide ((2:Nat) ≥ 1) = true from rfl,
        show (2:Nat) - 1 = 1 from rfl,
        show Nat.testBit 21845 1 = false from rfl,
        show Nat.testBit 21845 2 = true from rfl,
        hOf2, Bool.true_and, Bool.and_true, Bool.and_false, Bool.false_or]
    · simp only [Nat.testBit_lor, Nat.testBit_shiftLeft, Nat.testBit_land,
        show decide ((3:Nat) ≥ 1) = true from rfl,
        show (3:Nat) - 1 = 2 from rfl,
        show Nat.testBit 21845 2 = true from rfl,
        show Nat.testBit 21845 3 = false from rfl,
        hEf2, Bool.true_and, Bool.and_true, Bool.and_false, Bool.or_false]
    · simp only [Nat.testBit_lor, Nat.testBit_shiftLeft, Nat.testBit_land,
        show decide ((4:Nat) ≥ 1) = true from rfl,
        show (4:Nat) - 1 = 3 from rfl,
        show Nat.testBit 21845 3 = false from rfl,
        show Nat.testBit 21845 4 = true from rfl,
        hOf4, Bool.true_and, Bool.and_true, Bool.and_false, Bool.false_or]
    · simp only [Nat.testBit_lor, Nat.testBit_shiftLeft, Nat.testBit_land,
        show decide ((5:Nat) ≥ 1) = true from rfl,
        show (5:Nat) - 1 = 4 from rfl,
        show Nat.testBit 21845 4 = true from rfl,
        show Nat.testBit 21845 5 = false from rfl,
        hEf4, Bool.true_and, Bool.and_true, Bool.and_false, Bool.or_false]
    · simp only [Nat.testBit_lor, Nat.testBit_shiftLeft, Nat.testBit_land,
        show decide ((6:Nat) ≥ 1) = true from rfl,
        show (6:Nat) - 1 = 5 from rfl,
        show Nat.testBit 21845 5 = false from rfl,
        show Nat.testBit 21845 6 = true from rfl,
        hOf6, Bool.true_and, Bool.and_true, Bool.and_false, Bool.false_or]
    · simp only [Nat.testBit_lor, Nat.testBit_shiftLeft, Nat.testBit_land,
        show decide ((7:Nat) ≥ 1) = true from rfl,
        show (7:Nat) - 1 = 6 from rfl,
        show Nat.testBit 21845 6 = true from rfl,
        show Nat.testBit 21845 7 = false from rfl,
        hEf6, Bool.true_and, Bool.and_true, Bool.and_false, Bool.or_false]
    · simp only [Nat.testBit_lor, Nat.testBit_shiftLeft, Nat.testBit_land,
        show decide ((8:Nat) ≥ 1) = true from rfl,
        show (8:Nat) - 1 = 7 from rfl,
        show Nat.testBit 21845 7 = false from rfl,
        show Nat.testBit 21845 8 = true from rfl,
        hOf8, Bool.true_and, Bool.and_true, Bool.and_false, Bool.false_or]
    · simp only [Nat.testBit_lor, Nat.testBit_shiftLeft, Nat.testBit_land,
        show decide ((9:Nat) ≥ 1) = true from rfl,
        show (9:Nat) - 1 = 8 from rfl,
        show Nat.testBit 21845 8 = true from rfl,
        show Nat.testBit 21845 9 = false from rfl,
        hEf8, Bool.true_and, Bool.and_true, Bool.and_false, Bool.or_false]
    · simp only [Nat.testBit_lor, Nat.testBit_shiftLeft, Nat.testBit_land,
        show decide ((10:Nat) ≥ 1) = true from rfl,
        show (10:Nat) - 1 = 9 from rfl,
        show Nat.testBit 21845 9 = false from rfl,
        show Nat.testBit 21845 10 = true from rfl,
        hOf10, Bool.true_and, Bool.and_true, Bool.and_false, Bool.false_or]
    · simp only [Nat.testBit_lor, Nat.testBit_shiftLeft, Nat.testBit_land,
        show decide ((11:Nat) ≥ 1) = true from rfl,
        show (11:Nat) - 1 = 10 from rfl,
        show Nat.testBit 21845 10 = true from rfl,
        show Nat.testBit 21845 11 = false from rfl,
        hEf10, Bool.true_and, Bool.and_true, Bool.and_false, Bool.or_false]
    · simp only [Nat.testBit_lor, Nat.testBit_shiftLeft, Nat.testBit_land,
        show decide ((12:Nat) ≥ 1) = true from rfl,
        show (12:Nat) - 1 = 11 from rfl,
        show Nat.testBit 21845 11 = false from rfl,
        show Nat.testBit 21845 12 = true from rfl,
        hOf12, Bool.true_and, Bool.and_true, Bool.and_false, Bool.false_or]
    · simp only [Nat.testBit_lor, Nat.testBit_shiftLeft, Nat.testBit_land,
        show decide ((13:Nat) ≥ 1) = true from rfl,
        show (13:Nat) - 1 = 12 from rfl,
        show Nat.testBit 21845 12 = true from rfl,
        show Nat.testBit 21845 13 = false from rfl,
        hEf12, Bool.true_and, Bool.and_true, Bool.and_false, Bool.or_false]
    · simp only [Nat.testBit_lor, Nat.testBit_shiftLeft, Nat.testBit_land,
        show decide ((14:Nat) ≥ 1) = true from rfl,
        show (14:Nat) - 1 = 13 from rfl,
        show Nat.testBit 21845 13 = false from rfl,
        show Nat.testBit 21845 14 = true from rfl,
        hOf14, Bool.true_and, Bool.and_true, Bool.and_false, Bool.false_or]
    · simp only [Nat.testBit_lor, Nat.testBit_shiftLeft, Nat.testBit_land,
        show decide ((15:Nat) ≥ 1) = true from rfl,
        show (15:Nat) - 1 = 14 from rfl,
        show Nat.testBit 21845 14 = true from rfl,
        show Nat.testBit 21845 15 = false from rfl,
        hEf14, Bool.true_and, Bool.and_true, Bool.and_false, Bool.or_false]
  · have hb1 : (E &&& 21845) <<< 1 < 2 ^ 16 := by
      have h := @Nat.and_le_right E 21845
      rw [Nat.shiftLeft_eq]; omega
    have hb2 : O &&& 21845 < 2 ^ 16 := by
      have h := @Nat.and_le_right O 21845
      omega
    have hb : (E &&& 21845) <<< 1 ||| (O &&& 21845) < 2 ^ 16 :=
      Nat.or_lt_two_pow hb1 hb2
    rw [Nat.testBit_lt_two_pow (lt_of_lt_of_le hb (Nat.pow_le_pow_right (by omega) hi)),
      Nat.testBit_lt_two_pow (lt_of_lt_of_le hw (Nat.pow_le_pow_right (by omega) hi))]

/-! ## The modulated data stream and its demodulation -/

theorem modulate_even_odd (p : Bool) (w : Nat) (es : List Emission) :
    modulate p (⟨.even, 16, w⟩ :: ⟨.odd, 16, w⟩ :: es) =
      mfmClocked p (evenDataBits w)
        ++ (mfmClocked (w.testBit 1) (oddDataBits w)
          ++ modulate (w.testBit 0) es) := rfl

theorem modCells_length (p : Bool) (w : Nat) :
    (mfmClocked p (evenDataBits w)
      ++ mfmClocked (w.testBit 1) (oddDataBits w)).length = 32 := rfl

theorem modWords_length (p : Bool) (ws : List Nat) :
    (modulate p (wordEmissions ws)).length = 32 * ws.length := by
  induction ws generalizing p with
  | nil => rfl
  | cons w ws ih =>
      show (modulate p (⟨.even, 16, w⟩ :: ⟨.odd, 16, w⟩ :: wordEmissions ws)).length
        = 32 * (ws.length + 1)
      rw [modulate_even_odd]
      simp only [List.length_append]
      rw [show (mfmClocked p (evenDataBits w)).length = 16 from rfl,
        show (mfmClocked (w.testBit 1) (oddDataBits w)).length = 16 from rfl,
        ih (w.testBit 0)]
      ring

theorem demodStep_modCells (p : Bool) (w : Nat) (hw : w < 2 ^ 16)
    (rest : List Bool) (w0 pos : Nat) (hw0 : w0 < 2 ^ 32) :
    demodStep ⟨(mfmClocked p (evenDataBits w)
        ++ mfmClocked (w.testBit 1) (oddDataBits w)) ++ rest, w0, pos⟩ =
      some (w, ⟨rest, valBits (mfmClocked p (evenDataBits w)
        ++ mfmClocked (w.testBit 1) (oddDataBits w)), pos + 32⟩) := by
  have hlen := modCells_length p w
  have hV : valBits (mfmClocked p (evenDataBits w)
      ++ mfmClocked (w.testBit 1) (oddDataBits w)) < 2 ^ 32 := by
    have h := valBits_lt (mfmClocked p (evenDataBits w)
      ++ mfmClocked (w.testBit 1) (oddDataBits w))
    rw [hlen] at h
    exact h
  have hbits := stream_next_bits_append (mfmClocked p (evenDataBits w)
    ++ mfmClocked (w.testBit 1) (oddDataBits w)) rest w0 pos hw0
  rw [hlen] at hbits
  have hword : (w0 * 2 ^ 32 + valBits (mfmClocked p (evenDataBits w)
      ++ mfmClocked (w.testBit 1) (oddDataBits w))) % 2 ^ 32
      = valBits (mfmClocked p (evenDataBits w)
        ++ mfmClocked (w.testBit 1) (oddDataBits w)) := by
    rw [Nat.mul_comm, Nat.mul_add_mod, Nat.mod_eq_of_lt hV]
  rw [hword] at hbits
  show (match stream_next_bits 32 ⟨(mfmClocked p (evenDataBits w)
      ++ mfmClocked (w.testBit 1) (oddDataBits w)) ++ rest, w0, pos⟩ with
    | none => none
    | some s1 => some (demod32 s1.word, s1)) = _
  rw [hbits]
  show some (demod32 (valBits (mfmClocked p (evenDataBits w)
    ++ mfmClocked (w.testBit 1) (oddDataBits w))), _) = _
  rw [demod32_modCells p w hw]

theorem mod_add_mul_pow (a b k : Nat) (h : a = b + k * 2 ^ 32) :
    a % 2 ^ 32 = b % 2 ^ 32 := by
  rw [h, Nat.add_mul_mod_self_right]

theorem demodBlock_modWords (ws : List Nat) (p : Bool) (rest : List Bool)
    (w0 pos : Nat) (hws : ∀ x ∈ ws, x < 2 ^ 16) (hw0 : w0 < 2 ^ 32) :
    demodBlock ws.length ⟨modulate p (wordEmissions ws) ++ rest, w0, pos⟩ =
      some (ws, ⟨rest,
        (w0 * 2 ^ (32 * ws.length) + valBits (modulate p (wordEmissions ws)))
          % 2 ^ 32,
        pos + 32 * ws.length⟩) := by
  induction ws generalizing p rest w0 pos with
  | nil =>
      show some (([] : List Nat), (⟨modulate p (wordEmissions []) ++ rest, w0,
        pos⟩ : MStream)) = _
      rw [show modulate p (wordEmissions []) = [] from rfl, List.nil_append]
      have h0 : (w0 * 2 ^ (32 * List.length ([] : List Nat))
          + valBits ([] : List Bool)) % 2 ^ 32 = w0 := by
        show (w0 * 1 + 0) % 2 ^ 32 = w0
        rw [Nat.mul_one, Nat.add_zero, Nat.mod_eq_of_lt hw0]
      rw [h0]
      rfl
  | cons w ws ih =>
      have hw : w < 2 ^ 16 := hws w (by simp)
      have hws2 : ∀ x ∈ ws, x < 2 ^ 16 := fun x hx => hws x (by simp [hx])
      have hVlt : valBits (mfmClocked p (evenDataBits w)
          ++ mfmClocked (w.testBit 1) (oddDataBits w)) < 2 ^ 32 := by
        have h := valBits_lt (mfmClocked p (evenDataBits w)
          ++ mfmClocked (w.testBit 1) (oddDataBits w))
        rw [modCells_length] at h
        exact h
      show (match demodStep ⟨modulate p (wordEmissions (w :: ws)) ++ rest,
          w0, pos⟩ with
        | none => none
        | some (x, s1) =>
            match demodBlock ws.length s1 with
            | none => none
            | some (xs, s2) => some (x :: xs, s2)) = _
      rw [show wordEmissions (w :: ws)
          = ⟨.even, 16, w⟩ :: ⟨.odd, 16, w⟩ :: wordEmissions ws from rfl,
        modulate_even_odd]
      have hassoc : (mfmClocked p (evenDataBits w)
            ++ (mfmClocked (w.testBit 1) (oddDataBits w)
              ++ modulate (w.testBit 0) (wordEmissions ws))) ++ rest
          = (mfmClocked p (evenDataBits w)
            ++ mfmClocked (w.testBit 1) (oddDataBits w))
            ++ (modulate (w.testBit 0) (wordEmissions ws) ++ rest) := by
        simp [List.append_assoc]
      rw [hassoc, demodStep_modCells p w hw _ w0 pos hw0]
      show (match demodBlock ws.length
          ⟨modulate (w.testBit 0) (wordEmissions ws) ++ rest,
            valBits (mfmClocked p (evenDataBits w)
              ++ mfmClocked (w.testBit 1) (oddDataBits w)), pos + 32⟩ with
        | none => none
        | some (xs, s2) => some (w :: xs, s2)) = _
      rw [ih (w.testBit 0) rest _ (pos + 32) hws2 hVlt]
      have hpos : pos + 32 + 32 * ws.length = pos + 32 * (ws.length + 1) := by
        ring
      have hwend : (valBits (mfmClocked p (evenDataBits w)
            ++ mfmClocked (w.testBit 1) (oddDataBits w)) * 2 ^ (32 * ws.length)
            + valBits (modulate (w.testBit 0) (wordEmissions ws))) % 2 ^ 32
          = (w0 * 2 ^ (32 * (ws.length + 1))
            + valBits (mfmClocked p (evenDataBits w)
              ++ (mfmClocked (w.testBit 1) (oddDataBits w)
                ++ modulate (w.testBit 0) (wordEmissions ws)))) % 2 ^ 32 := by
        simp only [valBits_append, List.length_append, modWords_length,
          show (mfmClocked (w.testBit 1) (oddDataBits w)).length = 16 from rfl,
          show (mfmClocked p (evenDataBits w)).length = 16 from rfl]
        symm
        apply mod_add_mul_pow _ _ (w0 * 2 ^ (32 * ws.length))
        rw [show 32 * (ws.length + 1) = 32 * ws.length + 32 from by ring,
          pow_add, pow_add]
        ring
      rw [List.length_cons, ← hpos, ← hwend]

/-! ## Slot arithmetic -/

theorem setSlot_length (block body : List Nat) (j : Nat)
    (hb : block.length = 3072) (hbody : body.length = 512) (hj : j < 6) :
    (setSlot block j body).length = 3072 := by
  show (block.take (j * 512) ++ body ++ block.drop (j * 512 + 512)).length
    = 3072
  simp only [List.length_append, List.length_take, List.length_drop, hb,
    hbody]
  omega

theorem slot_setSlot_self (block body : List Nat) (j : Nat)
    (hb : block.length = 3072) (hbody : body.length = 512) (hj : j < 6) :
    slot (setSlot block j body) j = body := by
  have htl : (block.take (j * 512)).length = j * 512 := by
    rw [List.length_take]
    omega
  show ((block.take (j * 512) ++ body ++ block.drop (j * 512 + 512)).drop
    (j * 512)).take 512 = body
  rw [List.append_assoc, List.drop_left' htl, List.take_left' hbody]

theorem slot_setSlot_ne (block body : List Nat) (i j : Nat)
    (hb : block.length = 3072) (hbody : body.length = 512) (hj : j < 6)
    (hi : i < 6) (hne : i ≠ j) :
    slot (setSlot block j body) i = slot block i := by
  have htl : (block.take (j * 512)).length = j * 512 := by
    rw [List.length_take]
    omega
  rcases Nat.lt_or_ge i j with hij | hij
  · have hij512 : i * 512 + 512 ≤ j * 512 := by
      have h := Nat.mul_le_mul_right 512 (show i + 1 ≤ j from hij)
      omega
    show ((block.take (j * 512) ++ body ++ block.drop (j * 512 + 512)).drop
      (i * 512)).take 512 = slot block i
    rw [List.append_assoc]
    have hd : i * 512 ≤ (block.take (j * 512)).length := by
      rw [htl]
      omega
    rw [List.drop_append_of_le_length hd]
    have ht : (512 : Nat) ≤ ((block.take (j * 512)).drop (i * 512)).length := by
      rw [List.length_drop, htl]
      omega
    rw [List.take_append_of_le_length ht, List.drop_take, List.take_take]
    have hmin : (512 : Nat) ⊓ (j * 512 - i * 512) = 512 := by omega
    rw [hmin]
    rfl
  · have hij2 : j < i := by omega
    have hij512 : j * 512 + 512 ≤ i * 512 := by
      have h := Nat.mul_le_mul_right 512 (show j + 1 ≤ i from hij2)
      omega
    show ((block.take (j * 512) ++ body ++ block.drop (j * 512 + 512)).drop
      (i * 512)).take 512 = slot block i
    have hlen2 : (block.take (j * 512) ++ body).length = j * 512 + 512 := by
      rw [List.length_append, htl, hbody]
    have hsplit : i * 512 = (block.take (j * 512) ++ body).length
        + (i * 512 - (j * 512 + 512)) := by
      rw [hlen2]
      omega
    rw [hsplit, List.drop_append, List.drop_drop]
    have hidx : j * 512 + 512 + (i * 512 - (j * 512 + 512)) = i * 512 := by
      omega
    rw [hidx]
    rfl

/-! ## The encoder word sequence -/

theorem csum16_lt (ws : List Nat) : csum16 ws < 2 ^ 16 := by
  suffices h : ∀ c, c < 2 ^ 16 →
      ws.foldl (fun c w => (c + w) % 2 ^ 16) c < 2 ^ 16 by
    exact h 0 (by norm_num)
  induction ws with
  | nil => intro c hc; exact hc
  | cons w ws ih =>
      intro c hc
      exact ih _ (Nat.mod_lt _ (by norm_num))

theorem cmpl16_lt (x : Nat) : cmpl16 x < 2 ^ 16 := by
  show 65535 - x < 2 ^ 16
  omega

theorem cmpl16_ne (x : Nat) (hx : x < 2 ^ 16) : cmpl16 x ≠ x := by
  show 65535 - x ≠ x
  omega

theorem wordEmissions_append (a b : List Nat) :
    wordEmissions (a ++ b) = wordEmissions a ++ wordEmissions b := by
  induction a with
  | nil => rfl
  | cons x a ih =>
      show (⟨.even, 16, x⟩ : Emission) :: ⟨.odd, 16, x⟩ :: wordEmissions (a ++ b)
        = _
      rw [ih]
      rfl

theorem secEmit_eq_wordEmissions (v n : Nat) : ∀ i dat,
    secEmit v n i dat = wordEmissions (encWords v n i dat) := by
  induction n with
  | zero => intro i dat; rfl
  | succ n ih =>
      intro i dat
      show (⟨.even, 16, if v &&& 1 <<< i = 0 then cmpl16 (csum16 (dat.take 512))
          else csum16 (dat.take 512)⟩ : Emission)
        :: ⟨.odd, 16, if v &&& 1 <<< i = 0 then cmpl16 (csum16 (dat.take 512))
          else csum16 (dat.take 512)⟩
        :: (wordEmissions (dat.take 512) ++ secEmit v n (i + 1) (dat.drop 512))
        = wordEmissions ((if v &&& 1 <<< i = 0
            then cmpl16 (csum16 (dat.take 512)) else csum16 (dat.take 512))
          :: (dat.take 512 ++ encWords v n (i + 1) (dat.drop 512)))
      rw [ih (i + 1) (dat.drop 512)]
      show _ = (⟨.even, 16, _⟩ : Emission) :: ⟨.odd, 16, _⟩
        :: wordEmissions (dat.take 512 ++ encWords v n (i + 1) (dat.drop 512))
      rw [wordEmissions_append]

theorem encWords_length (v n : Nat) : ∀ i dat, dat.length = 512 * n →
    (encWords v n i dat).length = 513 * n := by
  induction n with
  | zero => intro i dat h; rfl
  | succ n ih =>
      intro i dat h
      show ((if v &&& 1 <<< i = 0 then cmpl16 (csum16 (dat.take 512))
          else csum16 (dat.take 512))
        :: (dat.take 512 ++ encWords v n (i + 1) (dat.drop 512))).length
        = 513 * (n + 1)
      rw [List.length_cons, List.length_append, List.length_take,
        ih (i + 1) (dat.drop 512) (by rw [List.length_drop, h]; ring_nf; omega)]
      rw [h]
      have hmin : (512 : Nat) ⊓ 512 * (n + 1) = 512 := by
        have : (512 : Nat) ≤ 512 * (n + 1) := by nlinarith
        omega
      rw [hmin]
      ring

theorem encWords_bound (v n : Nat) : ∀ i dat, (∀ x ∈ dat, x < 2 ^ 16) →
    ∀ x ∈ encWords v n i dat, x < 2 ^ 16 := by
  induction n with
  | zero => intro i dat hdat x hx; simp [encWords] at hx
  | succ n ih =>
      intro i dat hdat x hx
      have hx2 : x = (if v &&& 1 <<< i = 0 then cmpl16 (csum16 (dat.take 512))
            else csum16 (dat.take 512))
          ∨ x ∈ dat.take 512 ++ encWords v n (i + 1) (dat.drop 512) := by
        simpa [encWords] using hx
      rcases hx2 with hx2 | hx2
      · rw [hx2]
        split
        · exact cmpl16_lt _
        · exact csum16_lt _
      · rcases List.mem_append.mp hx2 with hx3 | hx3
        · exact hdat x (List.mem_of_mem_take hx3)
        · exact ih (i + 1) (dat.drop 512)
            (fun y hy => hdat y (List.mem_of_mem_drop hy)) x hx3

/-! ## Characterization of the validation loop on an encoded word list -/

theorem valGo_encWords (v : Nat) (n : Nat) : ∀ j dat raw block valid nr,
    raw.drop (j * 513) = encWords v n j dat →
    dat.length = 512 * n →
    block.length = 3072 →
    j + n ≤ 6 →
    (valGo raw n j block valid nr).1.length = 3072 ∧
    (valGo raw n j block valid nr).2.1 = valid ||| maskBits v n j ∧
    (valGo raw n j block valid nr).2.2 = nr + cntBits v n j ∧
    (∀ i, i < 6 → (i < j ∨ j + n ≤ i) →
      slot (valGo raw n j block valid nr).1 i = slot block i) ∧
    (∀ i, j ≤ i → i < j + n →
      slot (valGo raw n j block valid nr).1 i =
        if v &&& 1 <<< i = 0 then slot block i
        else (dat.drop (512 * (i - j))).take 512) := by
  induction n with
  | zero =>
      intro j dat raw block valid nr hraw hdat hblock hjn
      refine ⟨hblock, ?_, ?_, ?_, ?_⟩
      · show valid = valid ||| 0
        rw [Nat.or_zero]
      · show nr = nr + 0
        rfl
      · intro i _ _
        rfl
      · intro i h1 h2
        omega
  | succ n ih =>
      intro j dat raw block valid nr hraw hdat hblock hjn
      have hj6 : j < 6 := by omega
      have htake_len : (dat.take 512).length = 512 := by
        rw [List.length_take, hdat]
        have h : (512 : Nat) * 1 ≤ 512 * (n + 1) :=
          Nat.mul_le_mul_left 512 (by omega)
        omega
      have hcsum : (raw.drop (j * 513)).headD 0
          = (if v &&& 1 <<< j = 0 then cmpl16 (csum16 (dat.take 512))
            else csum16 (dat.take 512)) := by
        rw [hraw]
        rfl
      have hbody : (raw.drop (j * 513 + 1)).take 512 = dat.take 512 := by
        have h1 : (raw.drop (j * 513)).drop 1 = raw.drop (j * 513 + 1) :=
          List.drop_drop 1 (j * 513) raw
        rw [← h1, hraw]
        show (dat.take 512
          ++ encWords v n (j + 1) (dat.drop 512)).take 512 = _
        rw [List.take_left' htake_len]
      have hnext : raw.drop ((j + 1) * 513)
          = encWords v n (j + 1) (dat.drop 512) := by
        have h1 : (raw.drop (j * 513)).drop 513 = raw.drop ((j + 1) * 513) := by
          rw [List.drop_drop, show j * 513 + 513 = (j + 1) * 513 from by ring]
        rw [← h1, hraw]
        show (dat.take 512
          ++ encWords v n (j + 1) (dat.drop 512)).drop 512 = _
        rw [List.drop_left' htake_len]
      have hdat2 : (dat.drop 512).length = 512 * n := by
        rw [List.length_drop, hdat]
        ring_nf
        omega
      have hunfold : valGo raw (n + 1) j block valid nr =
          if csum16 ((raw.drop (j * 513 + 1)).take 512)
              = (raw.drop (j * 513)).headD 0
          then valGo raw n (j + 1)
            (setSlot block j ((raw.drop (j * 513 + 1)).take 512))
            (valid ||| 1 <<< j) (nr + 1)
          else valGo raw n (j + 1) block valid nr := rfl
      rw [hunfold, hbody, hcsum]
      have hmaskunfold : maskBits v (n + 1) j
          = (if v &&& 1 <<< j = 0 then 0 else 1 <<< j)
            ||| maskBits v n (j + 1) := rfl
      have hcntunfold : cntBits v (n + 1) j
          = (if v &&& 1 <<< j = 0 then 0 else 1) + cntBits v n (j + 1) := rfl
      by_cases hbit : v &&& 1 <<< j = 0
      · rw [if_pos hbit] at hmaskunfold hcntunfold
        rw [if_pos hbit]
        rw [if_neg (Ne.symm (cmpl16_ne _ (csum16_lt _)))]
        obtain ⟨L, V, N, OUT, MID⟩ :=
          ih (j + 1) (dat.drop 512) raw block valid nr hnext hdat2 hblock
            (by omega)
        refine ⟨L, ?_, ?_, ?_, ?_⟩
        · rw [V, hmaskunfold, Nat.zero_or]
        · rw [N, hcntunfold]
          omega
        · intro i hi6 hrange
          exact OUT i hi6 (by omega)
        · intro i hji hijn
          rcases Nat.eq_or_lt_of_le hji with heq | hlt
          · rw [← heq]
            rw [if_pos hbit]
            exact OUT j (by omega) (by omega)
          · have h2 := MID i (by omega) (by omega)
            rw [h2]
            by_cases hbi : v &&& 1 <<< i = 0
            · rw [if_pos hbi, if_pos hbi]
            · rw [if_neg hbi, if_neg hbi]
              rw [List.drop_drop]
              congr 2
              omega
      · rw [if_neg hbit] at hmaskunfold hcntunfold
        rw [if_neg hbit]
        rw [if_pos rfl]
        have hblock2 : (setSlot block j (dat.take 512)).length = 3072 :=
          setSlot_length block (dat.take 512) j hblock htake_len hj6
        obtain ⟨L, V, N, OUT, MID⟩ :=
          ih (j + 1) (dat.drop 512) raw (setSlot block j (dat.take 512))
            (valid ||| 1 <<< j) (nr + 1) hnext hdat2 hblock2 (by omega)
        refine ⟨L, ?_, ?_, ?_, ?_⟩
        · rw [V, hmaskunfold, Nat.or_assoc]
        · rw [N, hcntunfold]
          omega
        · intro i hi6 hrange
          rw [OUT i hi6 (by omega)]
          exact slot_setSlot_ne block (dat.take 512) i j hblock htake_len hj6
            hi6 (by omega)
        · intro i hji hijn
          rcases Nat.eq_or_lt_of_le hji with heq | hlt
          · rw [← heq]
            rw [if_neg hbit]
            rw [OUT j (by omega) (by omega)]
            rw [slot_setSlot_self block (dat.take 512) j hblock htake_len
              (by omega)]
            rw [show 512 * (j - j) = 0 from by omega, List.drop_zero]
          · have h2 := MID i (by omega) (by omega)
            rw [h2]
            by_cases hbi : v &&& 1 <<< i = 0
            · rw [if_pos hbi, if_pos hbi]
              exact slot_setSlot_ne block (dat.take 512) i j hblock htake_len
                hj6 (by omega) (by omega)
            · rw [if_neg hbi, if_neg hbi]
              rw [List.drop_drop]
              congr 2
              omega

/-! ## Scanning through non-matching bit positions -/

theorem mod16_shift (x k y : Nat) :
    (x % 2 ^ 32 * 2 ^ k + y) % 2 ^ 16 = (x * 2 ^ k + y) % 2 ^ 16 := by
  have hm : x % 2 ^ 32 ≡ x [MOD 2 ^ 16] :=
    Nat.ModEq.of_dvd (by norm_num) (Nat.mod_modEq x (2 ^ 32))
  exact (hm.mul_right _).add_right _

theorem reg_step (w k y : Nat) (b : Bool) :
    ((w * 2 + (if b then 1 else 0)) % 2 ^ 32 * 2 ^ k + y) % 2 ^ 32
      = (w * 2 ^ (k + 1) + ((if b then 2 ^ k else 0) + y)) % 2 ^ 32 := by
  have hm := ((Nat.mod_modEq (w * 2 + (if b then 1 else 0))
    (2 ^ 32)).mul_right (2 ^ k)).add_right y
  have h3 : (w * 2 + (if b then 1 else 0)) * 2 ^ k + y
      = w * 2 ^ (k + 1) + ((if b then 2 ^ k else 0) + y) := by
    rw [pow_succ]
    cases b <;> simp <;> ring
  rw [← h3]
  exact hm

theorem mem_scanPositions (q : Nat) : ∀ p n,
    q ∈ scanPositions p n ↔ p < q ∧ q ≤ p + n := by
  intro p n
  induction n generalizing p with
  | zero =>
      show q ∈ ([] : List Nat) ↔ _
      constructor
      · intro h
        simp at h
      · intro h
        omega
  | succ n ih =>
      show q ∈ (p + 1) :: scanPositions (p + 1) n ↔ _
      rw [List.mem_cons, ih (p + 1)]
      omega

theorem decLoop_scan (l : List Bool) : ∀ (rest : List Bool) (w p : Nat)
    (st : DecState) (fuel : Nat), w < 2 ^ 32 → st.valid ≠ 63 →
    (∀ k, k < l.length →
      (w * 2 ^ (k + 1) + valBits (l.take (k + 1))) % 2 ^ 16 ≠ 0x4489) →
    decLoop (fuel + l.length) ⟨l ++ rest, w, p⟩ st =
      decLoop fuel ⟨rest, (w * 2 ^ l.length + valBits l) % 2 ^ 32,
        p + l.length⟩
        { st with tested := st.tested ++ scanPositions p l.length } := by
  induction l with
  | nil =>
      intro rest w p st fuel hw _ _
      have h1 : (w * 2 ^ (List.length ([] : List Bool)) + valBits []) % 2 ^ 32
          = w := by
        show (w * 1 + 0) % 2 ^ 32 = w
        rw [Nat.mul_one, Nat.add_zero, Nat.mod_eq_of_lt hw]
      rw [h1]
      rw [show st.tested ++ scanPositions p (List.length ([] : List Bool))
        = st.tested from List.append_nil _]
      rfl
  | cons b l ih =>
      intro rest w p st fuel hw hv hscan
      have hvb : valBits ((b :: l).take 1) = if b then 1 else 0 := by
        cases b <;> rfl
      have h0 := hscan 0 (by simp)
      rw [pow_one, hvb] at h0
      have hne : ¬ ((w * 2 + (if b then 1 else 0)) % 2 ^ 32) % 2 ^ 16
          = 0x4489 := by
        rw [Nat.mod_mod_of_dvd _ (by norm_num : (2:ℕ)^16 ∣ 2^32)]
        exact h0
      have hstep : decLoop (fuel + (b :: l).length) ⟨(b :: l) ++ rest, w, p⟩
          st = decLoop (fuel + l.length)
            ⟨l ++ rest, (w * 2 + (if b then 1 else 0)) % 2 ^ 32, p + 1⟩
            { st with tested := st.tested ++ [p + 1] } := by
        rw [List.length_cons, ← Nat.add_assoc]
        simp only [decLoop, stream_next_bit, List.cons_append, hv]
        rw [if_pos hne]
        simp
      rw [hstep]
      have hscan2 : ∀ k, k < l.length →
          ((w * 2 + (if b then 1 else 0)) % 2 ^ 32 * 2 ^ (k + 1)
            + valBits (l.take (k + 1))) % 2 ^ 16 ≠ 0x4489 := by
        intro k hk
        have h1 := hscan (k + 1) (by simp; omega)
        have htk : (b :: l).take (k + 2) = b :: l.take (k + 1) := rfl
        rw [htk] at h1
        have hlen : (l.take (k + 1)).length = k + 1 := by
          rw [List.length_take]
          omega
        have hvb2 : valBits (b :: l.take (k + 1))
            = (if b then 1 else 0) * 2 ^ (k + 1) + valBits (l.take (k + 1)) := by
          show (if b then 2 ^ (l.take (k + 1)).length else 0)
            + valBits (l.take (k + 1)) = _
          rw [hlen]
          cases b <;> simp
        rw [hvb2] at h1
        rw [mod16_shift]
        have halg : (w * 2 + (if b then 1 else 0)) * 2 ^ (k + 1)
            + valBits (l.take (k + 1))
            = w * 2 ^ (k + 1 + 1) + ((if b then 1 else 0) * 2 ^ (k + 1)
              + valBits (l.take (k + 1))) := by
          rw [pow_succ]
          ring
        rw [halg]
        exact h1
      rw [ih rest ((w * 2 + (if b then 1 else 0)) % 2 ^ 32) (p + 1)
        { st with tested := st.tested ++ [p + 1] } fuel
        (Nat.mod_lt _ (by norm_num)) hv hscan2]
      have hreg : ((w * 2 + (if b then 1 else 0)) % 2 ^ 32 * 2 ^ l.length
          + valBits l) % 2 ^ 32
          = (w * 2 ^ (b :: l).length + valBits (b :: l)) % 2 ^ 32 := by
        rw [reg_step]
        rfl
      rw [hreg]
      have hpos : p + 1 + l.length = p + (b :: l).length := by
        rw [List.length_cons]
        omega
      rw [hpos]
      have htst : (st.tested ++ [p + 1]) ++ scanPositions (p + 1) l.length
          = st.tested ++ scanPositions p (b :: l).length := by
        rw [List.append_assoc]
        rfl
      show decLoop fuel _ { st with
        tested := (st.tested ++ [p + 1]) ++ scanPositions (p + 1) l.length }
        = _
      rw [htst]

theorem scanPositions_snoc (n : Nat) : ∀ p,
    scanPositions p (n + 1) = scanPositions p n ++ [p + n + 1] := by
  induction n with
  | zero => intro p; rfl
  | succ n ih =>
      intro p
      show (p + 1) :: scanPositions (p + 1) (n + 1)
        = ((p + 1) :: scanPositions (p + 1) n) ++ [p + (n + 1) + 1]
      rw [ih (p + 1)]
      simp only [List.cons_append]
      rw [show p + 1 + n + 1 = p + (n + 1) + 1 from by omega]

theorem read_mfm_unfold (dat : List Nat) (v : Nat) :
    lemmings_read_mfm dat v = natBits 16 0x4489
      ++ (mfmClocked true (natBits 16 0xf000)
        ++ modulate false (wordEmissions (encWords v 6 0 dat))) := by
  show modulate false (lemmingsEmissions dat v) = _
  rw [show modulate false (lemmingsEmissions dat v) = natBits 16 0x4489
    ++ (mfmClocked true (natBits 16 0xf000)
      ++ modulate false (secEmit v 6 0 dat)) from rfl]
  rw [secEmit_eq_wordEmissions]

set_option maxRecDepth 4000 in
theorem decLoop_confirm (ws : List Nat) (rest : List Bool) (W p1 : Nat)
    (st1 : DecState) (fuel : Nat)
    (hW : W < 2 ^ 32) (hv : st1.valid ≠ 63)
    (h16 : (W * 2 + 1) % 2 ^ 32 % 2 ^ 16 = 0x4489)
    (hws : ∀ x ∈ ws, x < 2 ^ 16) (hlen : ws.length = 3078) :
    decLoop (fuel + 1) ⟨true :: (mfmClocked true (natBits 16 0xf000)
        ++ (modulate false (wordEmissions ws) ++ rest)), W, p1⟩ st1 =
      decLoop fuel ⟨rest, (0x552aaaaa * 2 ^ (32 * 3078)
          + valBits (modulate false (wordEmissions ws))) % 2 ^ 32,
        p1 + 1 + 32 + 32 * 3078⟩
        { st1 with
          block := (validateSectors ws st1.block st1.valid).1
          valid := (validateSectors ws st1.block st1.valid).2.1
          bitoff := if (validateSectors ws st1.block st1.valid).2.2 ≠ 0
            then (p1 + 1 - 1 + (2 ^ 32 - 15)) % 2 ^ 32 else st1.bitoff
          tested := st1.tested ++ [p1 + 1]
          syncs := st1.syncs ++ [(p1 + 1 - 1 + (2 ^ 32 - 15)) % 2 ^ 32] } := by
  show (if st1.valid = 63 then st1 else
    if ((W * 2 + 1) % 2 ^ 32) % 2 ^ 16 ≠ 0x4489 then
      decLoop fuel ⟨mfmClocked true (natBits 16 0xf000)
          ++ (modulate false (wordEmissions ws) ++ rest),
        (W * 2 + 1) % 2 ^ 32, p1 + 1⟩
        { st1 with tested := st1.tested ++ [p1 + 1] }
    else
      match stream_next_bits 32 ⟨mfmClocked true (natBits 16 0xf000)
          ++ (modulate false (wordEmissions ws) ++ rest),
          (W * 2 + 1) % 2 ^ 32, p1 + 1⟩ with
      | none => { st1 with tested := st1.tested ++ [p1 + 1], eos := true }
      | some s2 =>
          if s2.word ≠ 0x552aaaaa then
            decLoop fuel s2 { st1 with tested := st1.tested ++ [p1 + 1] }
          else
            match demodBlock 3078 s2 with
            | none =>
                { st1 with
                  tested := st1.tested ++ [p1 + 1]
                  syncs := st1.syncs
                    ++ [(p1 + 1 - 1 + (2 ^ 32 - 15)) % 2 ^ 32]
                  eos := true }
            | some (raw, s3) =>
                decLoop fuel s3
                  { st1 with
                    block := (validateSectors raw st1.block st1.valid).1
                    valid := (validateSectors raw st1.block st1.valid).2.1
                    bitoff :=
                      if (validateSectors raw st1.block st1.valid).2.2 ≠ 0
                      then (p1 + 1 - 1 + (2 ^ 32 - 15)) % 2 ^ 32
                      else st1.bitoff
                    tested := st1.tested ++ [p1 + 1]
                    syncs := st1.syncs
                      ++ [(p1 + 1 - 1 + (2 ^ 32 - 15)) % 2 ^ 32] }) = _
  rw [if_neg hv, if_neg (not_not_intro h16)]
  have hw16 : (W * 2 + 1) % 2 ^ 32 < 2 ^ 32 := Nat.mod_lt _ (by norm_num)
  have hconf : stream_next_bits 32 ⟨mfmClocked true (natBits 16 0xf000)
      ++ (modulate false (wordEmissions ws) ++ rest),
      (W * 2 + 1) % 2 ^ 32, p1 + 1⟩
      = some ⟨modulate false (wordEmissions ws) ++ rest, 0x552aaaaa,
          p1 + 1 + 32⟩ := by
    have hs := stream_next_bits_append (mfmClocked true (natBits 16 0xf000))
      (modulate false (wordEmissions ws) ++ rest) ((W * 2 + 1) % 2 ^ 32)
      (p1 + 1) hw16
    rw [show (mfmClocked true (natBits 16 0xf000)).length = 32 from rfl]
      at hs
    rw [hs]
    have hval : ((W * 2 + 1) % 2 ^ 32 * 2 ^ 32
        + valBits (mfmClocked true (natBits 16 0xf000))) % 2 ^ 32
        = 0x552aaaaa := by
      rw [Nat.mul_comm, Nat.mul_add_mod]
      decide
    rw [hval]
  rw [hconf]
  show (if (0x552aaaaa : Nat) ≠ 0x552aaaaa then _ else
    match demodBlock 3078 (⟨modulate false (wordEmissions ws) ++ rest,
        0x552aaaaa, p1 + 1 + 32⟩ : MStream) with
    | none =>
        { st1 with
          tested := st1.tested ++ [p1 + 1]
          syncs := st1.syncs ++ [(p1 + 1 - 1 + (2 ^ 32 - 15)) % 2 ^ 32]
          eos := true }
    | some (raw, s3) =>
        decLoop fuel s3
          { st1 with
            block := (validateSectors raw st1.block st1.valid).1
            valid := (validateSectors raw st1.block st1.valid).2.1
            bitoff := if (validateSectors raw st1.block st1.valid).2.2 ≠ 0
              then (p1 + 1 - 1 + (2 ^ 32 - 15)) % 2 ^ 32
              else st1.bitoff
            tested := st1.tested ++ [p1 + 1]
            syncs := st1.syncs
              ++ [(p1 + 1 - 1 + (2 ^ 32 - 15)) % 2 ^ 32] }) = _
  rw [if_neg (not_not_intro rfl)]
  have hdemod : demodBlock 3078 (⟨modulate false (wordEmissions ws) ++ rest,
      0x552aaaaa, p1 + 1 + 32⟩ : MStream)
      = some (ws, ⟨rest, (0x552aaaaa * 2 ^ (32 * 3078)
          + valBits (modulate false (wordEmissions ws))) % 2 ^ 32,
        p1 + 1 + 32 + 32 * 3078⟩) := by
    have hd := demodBlock_modWords ws false rest 0x552aaaaa (p1 + 1 + 32)
      hws (by norm_num)
    rw [hlen] at hd
    exact hd
  rw [hdemod]

set_option maxRecDepth 4000 in
theorem decLoop_attempt (dat : List Nat) (v : Nat) (rest : List Bool)
    (w0 p0 : Nat) (st : DecState) (fuel : Nat)
    (hdat : dat.length = 3072) (hbdat : ∀ x ∈ dat, x < 2 ^ 16)
    (hw0 : w0 < 2 ^ 32) (hp0 : p0 < 2 ^ 32) (hv : st.valid ≠ 63)
    (hclear : ∀ k, k < 15 →
      (w0 * 2 ^ (k + 1) + valBits ((natBits 16 0x4489).take (k + 1)))
        % 2 ^ 16 ≠ 0x4489) :
    decLoop (fuel + 16) ⟨lemmings_read_mfm dat v ++ rest, w0, p0⟩ st =
      decLoop fuel ⟨rest,
        (0x552aaaaa * 2 ^ (32 * 3078)
          + valBits (modulate false (wordEmissions (encWords v 6 0 dat))))
          % 2 ^ 32,
        p0 + 98544⟩
        { st with
          block := (validateSectors (encWords v 6 0 dat) st.block st.valid).1
          valid :=
            (validateSectors (encWords v 6 0 dat) st.block st.valid).2.1
          bitoff := if (validateSectors (encWords v 6 0 dat) st.block
              st.valid).2.2 ≠ 0 then p0 else st.bitoff
          tested := st.tested ++ scanPositions p0 16
          syncs := st.syncs ++ [p0] } := by
  have hpre : natBits 16 0x4489 = [false, true, false, false, false, true,
      false, false, true, false, false, false, true, false, false] ++ [true] :=
    by decide
  have hstream : lemmings_read_mfm dat v ++ rest
      = [false, true, false, false, false, true, false, false, true, false,
          false, false, true, false, false]
        ++ (true :: (mfmClocked true (natBits 16 0xf000)
          ++ (modulate false (wordEmissions (encWords v 6 0 dat)) ++ rest))) := by
    rw [read_mfm_unfold, hpre]
    simp [List.append_assoc]
  rw [hstream]
  have hclear2 : ∀ k, k < 15 →
      (w0 * 2 ^ (k + 1)
        + valBits (([false, true, false, false, false, true, false, false,
            true, false, false, false, true, false, false] :
            List Bool).take (k + 1))) % 2 ^ 16 ≠ 0x4489 := by
    intro k hk
    have h1 := hclear k hk
    have h2 : (natBits 16 0x4489).take (k + 1)
        = ([false, true, false, false, false, true, false, false, true,
            false, false, false, true, false, false] : List Bool).take
            (k + 1) := by
      rw [hpre, List.take_append_of_le_length (by simp; omega)]
    rw [h2] at h1
    exact h1
  rw [show fuel + 16 = fuel + 1 + 15 from by omega]
  rw [show (15 : Nat) = ([false, true, false, false, false, true, false,
    false, true, false, false, false, true, false, false] :
    List Bool).length from rfl]
  rw [decLoop_scan [false, true, false, false, false, true, false, false,
    true, false, false, false, true, false, false]
    (true :: (mfmClocked true (natBits 16 0xf000)
      ++ (modulate false (wordEmissions (encWords v 6 0 dat)) ++ rest)))
    w0 p0 st (fuel + 1) hw0 hv hclear2]
  have hlen6 : (encWords v 6 0 dat).length = 3078 := by
    rw [encWords_length v 6 0 dat (by omega)]
  have h16 : ((w0 * 2 ^ (List.length ([false, true, false, false, false,
      true, false, false, true, false, false, false, true, false, false] :
      List Bool)) + valBits [false, true, false, false, false, true, false,
      false, true, false, false, false, true, false, false]) % 2 ^ 32 * 2 + 1)
      % 2 ^ 32 % 2 ^ 16 = 0x4489 := by
    rw [Nat.mod_mod_of_dvd _ (by norm_num : (2:ℕ) ^ 16 ∣ 2 ^ 32)]
    rw [show List.length ([false, true, false, false, false, true, false,
      false, true, false, false, false, true, false, false] : List Bool)
      = 15 from rfl]
    rw [show valBits [false, true, false, false, false, true, false, false,
      true, false, false, false, true, false, false] = 8772 from by decide]
    rw [show (w0 * 2 ^ 15 + 8772) % 2 ^ 32 * 2
      = (w0 * 2 ^ 15 + 8772) % 2 ^ 32 * 2 ^ 1 from rfl]
    rw [mod16_shift]
    rw [show (w0 * 2 ^ 15 + 8772) * 2 ^ 1 + 1 = w0 * 2 ^ 16 + 17545 from by
      ring]
    rw [Nat.mul_comm w0 (2 ^ 16), Nat.mul_add_mod]
    norm_num
  have hWlt : (w0 * 2 ^ (List.length ([false, true, false, false, false,
      true, false, false, true, false, false, false, true, false, false] :
      List Bool)) + valBits [false, true, false, false, false, true, false,
      false, true, false, false, false, true, false, false]) % 2 ^ 32
      < 2 ^ 32 := Nat.mod_lt _ (by norm_num)
  generalize hWdef : (w0 * 2 ^ (List.length ([false, true, false, false,
      false, true, false, false, true, false, false, false, true, false,
      false] : List Bool)) + valBits [false, true, false, false, false, true,
      false, false, true, false, false, false, true, false, false]) % 2 ^ 32
      = W
  rw [hWdef] at h16 hWlt
  have hc := decLoop_confirm (encWords v 6 0 dat) rest W (p0 + 15)
    { st with tested := st.tested ++ scanPositions p0 (List.length
        ([false, true, false, false, false, true, false, false, true, false,
          false, false, true, false, false] : List Bool)) }
    fuel hWlt hv h16 (encWords_bound v 6 0 dat hbdat) hlen6
  rw [show List.length ([false, true, false, false, false, true, false,
    false, true, false, false, false, true, false, false] : List Bool)
    = 15 from rfl] at hc ⊢
  rw [hc]
  have hidx : (p0 + 15 + 1 - 1 + (2 ^ 32 - 15)) % 2 ^ 32 = p0 := by
    have h32 : (2:ℕ) ^ 32 = 4294967296 := by norm_num
    rw [h32]
    rw [h32] at hp0
    omega
  rw [hidx]
  have hpos : p0 + 15 + 1 + 32 + 32 * 3078 = p0 + 98544 := by omega
  simp only [hpos]
  have htested : (st.tested ++ scanPositions p0 15) ++ [p0 + 15 + 1]
      = st.tested ++ scanPositions p0 16 := by
    rw [List.append_assoc]
    rw [← scanPositions_snoc 15 p0]
  simp only [htested]

/-! ## Small facts used by the end-to-end theorems -/

theorem valBits_replicate_false (n : Nat) :
    valBits (List.replicate n false) = 0 := by
  induction n with
  | zero => rfl
  | succ n ih => simp [List.replicate_succ, valBits, ih]

theorem initBlock_length : initBlock.length = 3072 := by
  rw [show initBlock = (List.replicate 1536 [0x4E4C, 0x454D]).flatten from rfl,
    List.length_flatten, List.map_replicate, List.sum_replicate]
  rfl

theorem and_shift_eq_zero (v i : Nat) :
    v &&& 1 <<< i = 0 ↔ v.testBit i = false := by
  rw [Nat.one_shiftLeft, Nat.and_two_pow]
  cases hb : v.testBit i <;> simp [hb]

theorem maskBits_id : ∀ v, v < 64 → maskBits v 6 0 = v := by decide

theorem cntBits_ne_zero : ∀ v, v < 64 → v ≠ 0 → cntBits v 6 0 ≠ 0 := by decide

theorem cntBits_of_zero : cntBits 0 6 0 = 0 := by decide

theorem hclear_zero : ∀ k, k < 15 →
    (0 * 2 ^ (k + 1) + valBits ((natBits 16 0x4489).take (k + 1))) % 2 ^ 16
      ≠ 0x4489 := by decide

theorem zeros_clear (w : Nat) : ∀ k, k < (List.replicate 32 false).length →
    (w * 2 ^ (k + 1)
      + valBits ((List.replicate 32 false).take (k + 1))) % 2 ^ 16
      ≠ 0x4489 := by
  intro k _
  rw [List.take_replicate, valBits_replicate_false, Nat.add_zero]
  have h1 : w * 2 ^ (k + 1) = w * 2 ^ k * 2 := by ring
  have h2 : (2 : Nat) ^ 16 = 2 ^ 15 * 2 := by norm_num
  rw [h1, h2, Nat.mul_mod_mul_right]
  intro h
  omega

theorem decLoop_eos (fuel w p : Nat) (st : DecState) :
    decLoop (fuel + 1) ⟨[], w, p⟩ st = { st with eos := true } := rfl

theorem read_mfm_length (dat : List Nat) (v : Nat) (hdat : dat.length = 3072) :
    (lemmings_read_mfm dat v).length = 98544 := by
  rw [read_mfm_unfold]
  simp only [List.length_append]
  rw [show (natBits 16 0x4489).length = 16 from rfl,
    show (mfmClocked true (natBits 16 0xf000)).length = 32 from rfl,
    modWords_length]
  rw [encWords_length v 6 0 dat (by omega)]

theorem stream_next_bit_len (s s1 : MStream) (h : stream_next_bit s = some s1) :
    s.bits.length = s1.bits.length + 1 ∧ s1.pos = s.pos + 1 := by
  simp only [stream_next_bit] at h
  cases hsb : s.bits with
  | nil => rw [hsb] at h; cases h
  | cons b rest =>
      rw [hsb] at h
      have h2 : s1 = ⟨rest, (s.word * 2 + (if b then 1 else 0)) % 2 ^ 32,
          s.pos + 1⟩ := (Option.some.inj h).symm
      rw [h2]
      exact ⟨by rw [List.length_cons], rfl⟩

theorem stream_next_bits_len : ∀ (n : Nat) (s t : MStream),
    stream_next_bits n s = some t →
    s.bits.length = t.bits.length + n ∧ t.pos = s.pos + n := by
  intro n
  induction n with
  | zero =>
      intro s t h
      have h2 : s = t := Option.some.inj h
      rw [h2]
      exact ⟨rfl, rfl⟩
  | succ n ih =>
      intro s t h
      rw [show stream_next_bits (n + 1) s
        = (stream_next_bit s).bind (stream_next_bits n) from rfl] at h
      cases hb : stream_next_bit s with
      | none => rw [hb] at h; cases h
      | some s1 =>
          rw [hb] at h
          simp only [Option.some_bind] at h
          have h1 := ih s1 t h
          have h2 := stream_next_bit_len s s1 hb
          exact ⟨by omega, by omega⟩

theorem demodStep_some (s : MStream) (w : Nat) (s1 : MStream)
    (h : demodStep s = some (w, s1)) :
    stream_next_bits 32 s = some s1 ∧ w = demod32 s1.word := by
  simp only [demodStep] at h
  cases hb : stream_next_bits 32 s with
  | none => rw [hb] at h; cases h
  | some t =>
      rw [hb] at h
      have h2 : (demod32 t.word, t) = (w, s1) := Option.some.inj h
      injection h2 with h3 h4
      rw [← h4, ← h3]
      exact ⟨rfl, rfl⟩

theorem demodBlock_len : ∀ (n : Nat) (s : MStream) (ws : List Nat) (t : MStream),
    demodBlock n s = some (ws, t) →
    ws.length = n ∧ s.bits.length = t.bits.length + 32 * n
      ∧ t.pos = s.pos + 32 * n := by
  intro n
  induction n with
  | zero =>
      intro s ws t h
      have h2 : (([] : List Nat), s) = (ws, t) := Option.some.inj h
      injection h2 with h3 h4
      rw [← h3, ← h4]
      exact ⟨rfl, by omega, by omega⟩
  | succ n ih =>
      intro s ws t h
      simp only [demodBlock] at h
      cases hds : demodStep s with
      | none => rw [hds] at h; cases h
      | some p =>
          obtain ⟨w, s1⟩ := p
          rw [hds] at h
          obtain ⟨hnxt, _⟩ := demodStep_some s w s1 hds
          have hlen1 := stream_next_bits_len 32 s s1 hnxt
          have hred : (match demodBlock n s1 with
              | none => none
              | some (xs, s2) => some (w :: xs, s2)) = some (ws, t) := h
          cases hdb : demodBlock n s1 with
          | none => rw [hdb] at hred; cases hred
          | some q =>
              obtain ⟨ws1, t1⟩ := q
              rw [hdb] at hred
              have h2 : (w :: ws1, t1) = (ws, t) := Option.some.inj hred
              injection h2 with h3 h4
              have h5 := ih s1 ws1 t1 hdb
              rw [← h3, ← h4]
              refine ⟨?_, by omega, by omega⟩
              rw [List.length_cons]
              omega

/-- One unfolding of the main loop on a non-empty stream, with the inner
stream-reader step already reduced. -/
theorem decLoop_succ (fuel : Nat) (b : Bool) (rest : List Bool) (w p : Nat)
    (st : DecState) :
    decLoop (fuel + 1) ⟨b :: rest, w, p⟩ st =
      if st.valid = 63 then st
      else if ((w * 2 + (if b then 1 else 0)) % 2 ^ 32) % 2 ^ 16 ≠ 0x4489 then
        decLoop fuel ⟨rest, (w * 2 + (if b then 1 else 0)) % 2 ^ 32, p + 1⟩
          { st with tested := st.tested ++ [p + 1] }
      else
        match stream_next_bits 32
            ⟨rest, (w * 2 + (if b then 1 else 0)) % 2 ^ 32, p + 1⟩ with
        | none => { st with tested := st.tested ++ [p + 1], eos := true }
        | some s2 =>
            if s2.word ≠ 0x552aaaaa then
              decLoop fuel s2 { st with tested := st.tested ++ [p + 1] }
            else
              match demodBlock 3078 s2 with
              | none =>
                  { st with
                    tested := st.tested ++ [p + 1]
                    syncs := st.syncs ++ [(p + 1 - 1 + (2 ^ 32 - 15)) % 2 ^ 32]
                    eos := true }
              | some (raw, s3) =>
                  decLoop fuel s3
                    { st with
                      block := (validateSectors raw st.block st.valid).1
                      valid := (validateSectors raw st.block st.valid).2.1
                      bitoff :=
                        if (validateSectors raw st.block st.valid).2.2 ≠ 0
                        then (p + 1 - 1 + (2 ^ 32 - 15)) % 2 ^ 32
                        else st.bitoff
                      tested := st.tested ++ [p + 1]
                      syncs := st.syncs
                        ++ [(p + 1 - 1 + (2 ^ 32 - 15)) % 2 ^ 32] } := rfl

/-- Fuel sufficiency: with more fuel than remaining stream bits, the loop
can only stop by exhausting the stream or by completing all six sectors
(every iteration consumes at least one bit). -/
theorem decLoop_fuel : ∀ (fuel : Nat) (s : MStream) (st : DecState),
    s.bits.length < fuel →
    (decLoop fuel s st).eos = true ∨ (decLoop fuel s st).valid = 63 := by
  intro fuel
  induction fuel with
  | zero => intro s st h; exact absurd h (Nat.not_lt_zero _)
  | succ fuel ih =>
      intro s st h
      obtain ⟨bits, w, p⟩ := s
      cases bits with
      | nil => exact Or.inl rfl
      | cons b rest =>
          have h2 : rest.length + 1 < fuel + 1 := h
          rw [decLoop_succ]
          generalize (w * 2 + (if b then 1 else 0)) % 2 ^ 32 = W
          split
          · rename_i hv
            exact Or.inr hv
          · split
            · apply ih
              show rest.length < fuel
              omega
            · split
              · exact Or.inl rfl
              · rename_i s2 h32
                have hl2 := stream_next_bits_len 32 _ s2 h32
                have hl2b : rest.length = s2.bits.length + 32 := hl2.1
                split
                · apply ih
                  omega
                · split
                  · exact Or.inl rfl
                  · rename_i q raw s3 hdb
                    have hl3 := demodBlock_len 3078 s2 raw s3 hdb
                    apply ih
                    omega

/-- The validation loop only ever adds bits to `valid_blocks`
(`valid |= 1 << j` is its only update). -/
theorem valGo_or (raw : List Nat) : ∀ (n j : Nat) (block : List Nat)
    (valid nr : Nat),
    ∃ M, (valGo raw n j block valid nr).2.1 = valid ||| M := by
  intro n
  induction n with
  | zero =>
      intro j block valid nr
      exact ⟨0, (Nat.or_zero valid).symm⟩
  | succ n ih =>
      intro j block valid nr
      have hunf : valGo raw (n + 1) j block valid nr
          = if csum16 ((raw.drop (j * 513 + 1)).take 512)
              = (raw.drop (j * 513)).headD 0
            then valGo raw n (j + 1)
              (setSlot block j ((raw.drop (j * 513 + 1)).take 512))
              (valid ||| 1 <<< j) (nr + 1)
            else valGo raw n (j + 1) block valid nr := rfl
      rw [hunf]
      split
      · obtain ⟨M, hM⟩ := ih (j + 1)
          (setSlot block j ((raw.drop (j * 513 + 1)).take 512))
          (valid ||| 1 <<< j) (nr + 1)
        exact ⟨1 <<< j ||| M, by rw [hM, Nat.or_assoc]⟩
      · exact ih (j + 1) block valid nr

/-- A validity bit, once set, survives every further loop iteration: no
branch of the main loop ever clears a bit of `valid_blocks`. -/
theorem decLoop_valid_mono : ∀ (fuel : Nat) (s : MStream) (st : DecState)
    (i : Nat), st.valid.testBit i = true →
    (decLoop fuel s st).valid.testBit i = true := by
  intro fuel
  induction fuel with
  | zero => intro s st i h; exact h
  | succ fuel ih =>
      intro s st i hbit
      obtain ⟨bits, w, p⟩ := s
      cases bits with
      | nil => exact hbit
      | cons b rest =>
          rw [decLoop_succ]
          generalize (w * 2 + (if b then 1 else 0)) % 2 ^ 32 = W
          split
          · exact hbit
          · split
            · exact ih _ _ i hbit
            · split
              · exact hbit
              · split
                · exact ih _ _ i hbit
                · split
                  · exact hbit
                  · apply ih
                    show (validateSectors _ st.block st.valid).2.1.testBit i
                      = true
                    obtain ⟨M, hM⟩ := valGo_or _ 6 0 st.block st.valid 0
                    show (valGo _ 6 0 st.block st.valid 0).2.1.testBit i = true
                    rw [hM, Nat.testBit_or, hbit]
                    rfl

/-- Full characterization of the validation loop on an arbitrary
demodulated word list: per sector group, the body is copied and the
validity bit set exactly when the wraparound sum of the 512 body words
equals the leading checksum word; otherwise slot and bit are untouched;
the counter totals the matches. -/
theorem valGo_char (raw : List Nat) (hraw : raw.length = 3078) :
    ∀ (n j : Nat) (block : List Nat) (valid nr : Nat),
    block.length = 3072 → j + n ≤ 6 →
    (valGo raw n j block valid nr).1.length = 3072
    ∧ (∀ i, i < 6 → (i < j ∨ j + n ≤ i) →
        slot (valGo raw n j block valid nr).1 i = slot block i
        ∧ (valGo raw n j block valid nr).2.1.testBit i = valid.testBit i)
    ∧ (∀ i, j ≤ i → i < j + n →
        (csum16 ((raw.drop (i * 513 + 1)).take 512)
            = (raw.drop (i * 513)).headD 0 →
          slot (valGo raw n j block valid nr).1 i
              = (raw.drop (i * 513 + 1)).take 512
          ∧ (valGo raw n j block valid nr).2.1.testBit i = true)
        ∧ (csum16 ((raw.drop (i * 513 + 1)).take 512)
            ≠ (raw.drop (i * 513)).headD 0 →
          slot (valGo raw n j block valid nr).1 i = slot block i
          ∧ (valGo raw n j block valid nr).2.1.testBit i = valid.testBit i))
    ∧ (valGo raw n j block valid nr).2.2 = nr + matchCount raw n j := by
  intro n
  induction n with
  | zero =>
      intro j block valid nr hblock hjn
      refine ⟨hblock, ?_, ?_, ?_⟩
      · intro i _ _
        exact ⟨rfl, rfl⟩
      · intro i h1 h2
        omega
      · show nr = nr + 0
        rfl
  | succ n ih =>
      intro j block valid nr hblock hjn
      have hj6 : j < 6 := by omega
      have hbody_len : ((raw.drop (j * 513 + 1)).take 512).length = 512 := by
        rw [List.length_take, List.length_drop, hraw]
        omega
      have hunfold : valGo raw (n + 1) j block valid nr =
          if csum16 ((raw.drop (j * 513 + 1)).take 512)
              = (raw.drop (j * 513)).headD 0
          then valGo raw n (j + 1)
            (setSlot block j ((raw.drop (j * 513 + 1)).take 512))
            (valid ||| 1 <<< j) (nr + 1)
          else valGo raw n (j + 1) block valid nr := rfl
      have hcnt : matchCount raw (n + 1) j
          = (if csum16 ((raw.drop (j * 513 + 1)).take 512)
              = (raw.drop (j * 513)).headD 0 then 1 else 0)
            + matchCount raw n (j + 1) := rfl
      rw [hunfold, hcnt]
      by_cases hm : csum16 ((raw.drop (j * 513 + 1)).take 512)
          = (raw.drop (j * 513)).headD 0
      · rw [if_pos hm, if_pos hm]
        have hblock2 : (setSlot block j
            ((raw.drop (j * 513 + 1)).take 512)).length = 3072 :=
          setSlot_length block _ j hblock hbody_len hj6
        obtain ⟨L, OUT, MID, N⟩ := ih (j + 1)
          (setSlot block j ((raw.drop (j * 513 + 1)).take 512))
          (valid ||| 1 <<< j) (nr + 1) hblock2 (by omega)
        have hbset : ∀ i, i ≠ j →
            (valid ||| 1 <<< j).testBit i = valid.testBit i := by
          intro i hne
          rw [Nat.testBit_or, Nat.one_shiftLeft,
            Nat.testBit_two_pow_of_ne (Ne.symm hne), Bool.or_false]
        have hbj : (valid ||| 1 <<< j).testBit j = true := by
          rw [Nat.testBit_or, Nat.one_shiftLeft, Nat.testBit_two_pow_self,
            Bool.or_true]
        refine ⟨L, ?_, ?_, ?_⟩
        · intro i hi6 hrange
          obtain ⟨hs, hb⟩ := OUT i hi6 (by omega)
          refine ⟨?_, ?_⟩
          · rw [hs]
            exact slot_setSlot_ne block _ i j hblock hbody_len hj6 hi6
              (by omega)
          · rw [hb, hbset i (by omega)]
        · intro i hji hijn
          rcases Nat.eq_or_lt_of_le hji with heq | hlt
          · constructor
            · intro _
              obtain ⟨hs, hb⟩ := OUT i (by omega) (by omega)
              refine ⟨?_, ?_⟩
              · rw [hs, ← heq]
                exact slot_setSlot_self block _ j hblock hbody_len hj6
              · rw [hb, ← heq, hbj]
            · intro hne
              rw [← heq] at hne
              exact absurd hm hne
          · have h2 := MID i (by omega) (by omega)
            constructor
            · intro hmi
              exact h2.1 hmi
            · intro hni
              obtain ⟨hs, hb⟩ := h2.2 hni
              refine ⟨?_, ?_⟩
              · rw [hs]
                exact slot_setSlot_ne block _ i j hblock hbody_len hj6
                  (by omega) (by omega)
              · rw [hb, hbset i (by omega)]
        · rw [N]
          omega
      · rw [if_neg hm, if_neg hm]
        obtain ⟨L, OUT, MID, N⟩ := ih (j + 1) block valid nr hblock (by omega)
        refine ⟨L, ?_, ?_, ?_⟩
        · intro i hi6 hrange
          exact OUT i hi6 (by omega)
        · intro i hji hijn
          rcases Nat.eq_or_lt_of_le hji with heq | hlt
          · constructor
            · intro hmi
              rw [← heq] at hmi
              exact absurd hmi hm
            · intro _
              exact OUT i (by omega) (by omega)
          · exact MID i (by omega) (by omega)
        · rw [N]
          omega

/-- Bit-level reading of the demodulation interleave: in the reconstructed
word, odd bit positions carry the even plane (the upper half of the single
32-bit read) and even bit positions carry the odd plane (its lower half). -/
theorem demod32_testBit (w : Nat) (k : Nat) (hk : k < 8) :
    (demod32 w).testBit (2 * k + 1) = (w / 2 ^ 16 % 2 ^ 16).testBit (2 * k)
    ∧ (demod32 w).testBit (2 * k) = (w % 2 ^ 16).testBit (2 * k) := by
  interval_cases k <;>
    constructor <;>
    simp [demod32, Nat.testBit_or, Nat.testBit_shiftLeft, Nat.testBit_and,
      Nat.testBit_mod_two_pow,
      show Nat.testBit 21845 0 = true from by decide,
      show Nat.testBit 21845 1 = false from by decide,
      show Nat.testBit 21845 2 = true from by decide,
      show Nat.testBit 21845 3 = false from by decide,
      show Nat.testBit 21845 4 = true from by decide,
      show Nat.testBit 21845 5 = false from by decide,
      show Nat.testBit 21845 6 = true from by decide,
      show Nat.testBit 21845 7 = false from by decide,
      show Nat.testBit 21845 8 = true from by decide,
      show Nat.testBit 21845 9 = false from by decide,
      show Nat.testBit 21845 10 = true from by decide,
      show Nat.testBit 21845 11 = false from by decide,
      show Nat.testBit 21845 12 = true from by decide,
      show Nat.testBit 21845 13 = false from by decide,
      show Nat.testBit 21845 14 = true from by decide,
      show Nat.testBit 21845 15 = false from by decide]

theorem wordEmissions_eq_flatten : ∀ ws : List Nat,
    wordEmissions ws
      = (ws.map (fun w =>
          [(⟨.even, 16, w⟩ : Emission), ⟨.odd, 16, w⟩])).flatten := by
  intro ws
  induction ws with
  | nil => rfl
  | cons w ws ih =>
      show (⟨.even, 16, w⟩ : Emission) :: ⟨.odd, 16, w⟩ :: wordEmissions ws = _
      rw [ih]
      rfl

theorem wordEmissions_even_get : ∀ (ws : List Nat) (k : Nat),
    (wordEmissions ws)[2 * k]?
      = (ws[k]?).map (fun w => (⟨.even, 16, w⟩ : Emission)) := by
  intro ws
  induction ws with
  | nil => intro k; rfl
  | cons w ws ih =>
      intro k
      cases k with
      | zero =>
          rw [show wordEmissions (w :: ws) = (⟨.even, 16, w⟩ : Emission)
            :: ⟨.odd, 16, w⟩ :: wordEmissions ws from rfl]
          simp
      | succ k =>
          show ((⟨.even, 16, w⟩ : Emission) :: ⟨.odd, 16, w⟩
            :: wordEmissions ws)[2 * (k + 1)]? = ((w :: ws)[k + 1]?).map _
          rw [show 2 * (k + 1) = 2 * k + 1 + 1 from by ring]
          simp only [List.getElem?_cons_succ]
          exact ih k

theorem wordEmissions_odd_get : ∀ (ws : List Nat) (k : Nat),
    (wordEmissions ws)[2 * k + 1]?
      = (ws[k]?).map (fun w => (⟨.odd, 16, w⟩ : Emission)) := by
  intro ws
  induction ws with
  | nil => intro k; rfl
  | cons w ws ih =>
      intro k
      cases k with
      | zero =>
          rw [show wordEmissions (w :: ws) = (⟨.even, 16, w⟩ : Emission)
            :: ⟨.odd, 16, w⟩ :: wordEmissions ws from rfl]
          simp
      | succ k =>
          show ((⟨.even, 16, w⟩ : Emission) :: ⟨.odd, 16, w⟩
            :: wordEmissions ws)[2 * (k + 1) + 1]? = ((w :: ws)[k + 1]?).map _
          rw [show 2 * (k + 1) + 1 = 2 * k + 1 + 1 + 1 from by ring]
          simp only [List.getElem?_cons_succ]
          exact ih k

theorem encWords_drop (v : Nat) : ∀ (i n j : Nat) (dat : List Nat), i ≤ n →
    dat.length = 512 * n →
    (encWords v n j dat).drop (513 * i)
      = encWords v (n - i) (j + i) (dat.drop (512 * i)) := by
  intro i
  induction i with
  | zero =>
      intro n j dat _ _
      simp
  | succ i ih =>
      intro n j dat hin hdat
      cases n with
      | zero => omega
      | succ n =>
          have htake_len : (dat.take 512).length = 512 := by
            rw [List.length_take, hdat]
            have h : (512 : Nat) * 1 ≤ 512 * (n + 1) :=
              Nat.mul_le_mul_left 512 (by omega)
            omega
          have h1 : encWords v (n + 1) j dat
              = (if v &&& 1 <<< j = 0 then cmpl16 (csum16 (dat.take 512))
                  else csum16 (dat.take 512))
                :: (dat.take 512 ++ encWords v n (j + 1) (dat.drop 512)) := rfl
          rw [h1]
          rw [show 513 * (i + 1) = 513 * i + 512 + 1 from by ring]
          rw [List.drop_succ_cons]
          have h2 : (dat.take 512
                ++ encWords v n (j + 1) (dat.drop 512)).drop (513 * i + 512)
              = (encWords v n (j + 1) (dat.drop 512)).drop (513 * i) := by
            rw [show 513 * i + 512 = 512 + 513 * i from by ring,
              ← List.drop_drop, List.drop_left' htake_len]
          rw [h2]
          have hdat2 : (dat.drop 512).length = 512 * n := by
            rw [List.length_drop, hdat]
            ring_nf
            omega
          rw [ih n (j + 1) (dat.drop 512) (by omega) hdat2]
          rw [show n + 1 - (i + 1) = n - i from by omega,
            show j + 1 + i = j + (i + 1) from by omega,
            List.drop_drop,
            show 512 + 512 * i = 512 * (i + 1) from by ring]

theorem csum_if_bridge (v i c : Nat) :
    (if v &&& 1 <<< i = 0 then cmpl16 c else c)
      = if v.testBit i = true then c else cmpl16 c := by
  by_cases h : v.testBit i = true
  · have h2 : ¬ v &&& 1 <<< i = 0 := by
      rw [and_shift_eq_zero]
      simp [h]
    rw [if_neg h2, if_pos h]
  · have hf : v.testBit i = false := by simpa using h
    have h2 : v &&& 1 <<< i = 0 := (and_shift_eq_zero v i).mpr hf
    rw [if_pos h2, if_neg h]

theorem secEmit_range (v : Nat) : ∀ (n i : Nat) (dat : List Nat),
    secEmit v n i dat
      = ((List.range n).map
          (fun t => secSpec v (i + t) ((dat.drop (512 * t)).take 512))).flatten := by
  intro n
  induction n with
  | zero => intro i dat; rfl
  | succ n ih =>
      intro i dat
      rw [show secEmit v (n + 1) i dat
          = (⟨.even, 16, if v &&& 1 <<< i = 0
                then cmpl16 (csum16 (dat.take 512))
                else csum16 (dat.take 512)⟩ : Emission)
            :: ⟨.odd, 16, if v &&& 1 <<< i = 0
                then cmpl16 (csum16 (dat.take 512))
                else csum16 (dat.take 512)⟩
            :: (wordEmissions (dat.take 512)
              ++ secEmit v n (i + 1) (dat.drop 512)) from rfl]
      rw [ih (i + 1) (dat.drop 512)]
      rw [List.range_succ_eq_map]
      simp only [List.map_cons, List.flatten_cons, List.map_map]
      have hmap : (List.range n).map
            ((fun t => secSpec v (i + t) ((dat.drop (512 * t)).take 512))
              ∘ Nat.succ)
          = (List.range n).map
            (fun t => secSpec v (i + 1 + t)
              (((dat.drop 512).drop (512 * t)).take 512)) := by
        apply List.map_congr_left
        intro t _
        show secSpec v (i + (t + 1)) ((dat.drop (512 * (t + 1))).take 512) = _
        rw [show i + (t + 1) = i + 1 + t from by omega,
          List.drop_drop, show 512 + 512 * t = 512 * (t + 1) from by ring]
      rw [hmap]
      simp only [Nat.mul_zero, List.drop_zero, Nat.add_zero]
      rw [show secSpec v i (dat.take 512)
          = (⟨.even, 16, if v.testBit i = true
                then csum16 (dat.take 512)
                else cmpl16 (csum16 (dat.take 512))⟩ : Emission)
            :: ⟨.odd, 16, if v.testBit i = true
                then csum16 (dat.take 512)
                else cmpl16 (csum16 (dat.take 512))⟩
            :: ((dat.take 512).map
              (fun w => [(⟨.even, 16, w⟩ : Emission), ⟨.odd, 16, w⟩])).flatten
          from rfl]
      simp only [List.cons_append]
      rw [csum_if_bridge v i (csum16 (dat.take 512))]
      rw [wordEmissions_eq_flatten]

/-- Single-attempt round trip at the decoder-state level: decoding a fresh
stream holding exactly one encoded track image synchronizes at bit
position 0, validates according to the encoded validity mask, and records
the data bit offset exactly when at least one sector validated. -/
theorem decodeRun_enc (dat : List Nat) (v : Nat) (th : TrackHeader)
    (hdat : dat.length = 3072) (hbdat : ∀ x ∈ dat, x < 2 ^ 16)
    (hv : v < 64) :
    decodeRun (mkStream (lemmings_read_mfm dat v)) th
      = { block := (validateSectors (encWords v 6 0 dat) initBlock 0).1
          valid := v
          bitoff := if v = 0 then th.data_bitoff else 0
          tested := scanPositions 0 16
          syncs := [0]
          eos := true } := by
  show decLoop ((lemmings_read_mfm dat v).length + 1)
    ⟨lemmings_read_mfm dat v, 0, 0⟩ (initState th) = _
  rw [read_mfm_length dat v hdat]
  rw [show (98544 : Nat) + 1 = 98529 + 16 from rfl]
  rw [show (⟨lemmings_read_mfm dat v, 0, 0⟩ : MStream)
    = ⟨lemmings_read_mfm dat v ++ [], 0, 0⟩ from by rw [List.append_nil]]
  rw [decLoop_attempt dat v [] 0 0 (initState th) 98529 hdat hbdat
    (by norm_num) (by norm_num)
    (by show (0 : Nat) ≠ 63; decide) hclear_zero]
  rw [show (98529 : Nat) = 98528 + 1 from rfl, decLoop_eos]
  obtain ⟨L, V, N, OUT, MID⟩ := valGo_encWords v 6 0 dat (encWords v 6 0 dat)
    initBlock 0 0 (by rw [Nat.zero_mul, List.drop_zero]) (by omega)
    initBlock_length (by omega)
  have hvalid : (validateSectors (encWords v 6 0 dat) initBlock 0).2.1
      = v := by
    show (valGo (encWords v 6 0 dat) 6 0 initBlock 0 0).2.1 = v
    rw [V, Nat.zero_or, maskBits_id v hv]
  have hcnt : (validateSectors (encWords v 6 0 dat) initBlock 0).2.2
      = cntBits v 6 0 := by
    show (valGo (encWords v 6 0 dat) 6 0 initBlock 0 0).2.2 = cntBits v 6 0
    rw [N, Nat.zero_add]
  show ({ block := (validateSectors (encWords v 6 0 dat) initBlock 0).1,
          valid := (validateSectors (encWords v 6 0 dat) initBlock 0).2.1,
          bitoff :=
            if (validateSectors (encWords v 6 0 dat) initBlock 0).2.2 ≠ 0
            then 0 else th.data_bitoff,
          tested := [] ++ scanPositions 0 16,
          syncs := [] ++ [0],
          eos := true } : DecState) = _
  rw [hvalid, hcnt, List.nil_append, List.nil_append]
  by_cases hv0 : v = 0
  · rw [hv0, cntBits_of_zero, if_neg (by omega), if_pos rfl]
  · rw [if_pos (cntBits_ne_zero v hv hv0), if_neg hv0]

/-- Two-attempt run: a stream holding two encoded track images separated
by 32 zero bits synchronizes twice (at bit offsets 0 and 98576), validates
the union of the two masks, keeps the later attempt's data where both
validated, and records the data bit offset of the last successful
attempt. -/
theorem decodeRun_two (dat1 dat2 : List Nat) (v1 v2 : Nat) (th : TrackHeader)
    (hd1 : dat1.length = 3072) (hb1 : ∀ x ∈ dat1, x < 2 ^ 16)
    (hd2 : dat2.length = 3072) (hb2 : ∀ x ∈ dat2, x < 2 ^ 16)
    (hv1 : v1 < 64) (hv2 : v2 < 64) (hv1n : v1 ≠ 0) (hv2n : v2 ≠ 0)
    (hv163 : v1 ≠ 63) :
    decodeRun (mkStream (lemmings_read_mfm dat1 v1
        ++ (List.replicate 32 false ++ lemmings_read_mfm dat2 v2))) th
      = { block := (validateSectors (encWords v2 6 0 dat2)
            (validateSectors (encWords v1 6 0 dat1) initBlock 0).1 v1).1,
          valid := v1 ||| v2,
          bitoff := 98576,
          tested := scanPositions 0 16
            ++ (scanPositions 98544 32 ++ scanPositions 98576 16),
          syncs := [0, 98576],
          eos := true } := by
  have hlen : (lemmings_read_mfm dat1 v1
      ++ (List.replicate 32 false ++ lemmings_read_mfm dat2 v2)).length
      = 197120 := by
    rw [List.length_append, List.length_append, List.length_replicate,
      read_mfm_length dat1 v1 hd1, read_mfm_length dat2 v2 hd2]
  show decLoop ((lemmings_read_mfm dat1 v1
      ++ (List.replicate 32 false ++ lemmings_read_mfm dat2 v2)).length + 1)
    ⟨lemmings_read_mfm dat1 v1
      ++ (List.replicate 32 false ++ lemmings_read_mfm dat2 v2), 0, 0⟩
    (initState th) = _
  rw [hlen]
  rw [show (197120 : Nat) + 1 = 197105 + 16 from rfl]
  rw [decLoop_attempt dat1 v1
    (List.replicate 32 false ++ lemmings_read_mfm dat2 v2) 0 0
    (initState th) 197105 hd1 hb1 (by norm_num) (by norm_num)
    (by show (0 : Nat) ≠ 63; decide) hclear_zero]
  simp only [initState, List.nil_append, Nat.zero_add]
  obtain ⟨L1, V1, N1, OUT1, MID1⟩ := valGo_encWords v1 6 0 dat1
    (encWords v1 6 0 dat1) initBlock 0 0 (by rw [Nat.zero_mul, List.drop_zero])
    (by omega) initBlock_length (by omega)
  have hvalid1 : (validateSectors (encWords v1 6 0 dat1) initBlock 0).2.1
      = v1 := by
    show (valGo (encWords v1 6 0 dat1) 6 0 initBlock 0 0).2.1 = v1
    rw [V1, Nat.zero_or, maskBits_id v1 hv1]
  have hcnt1 : (validateSectors (encWords v1 6 0 dat1) initBlock 0).2.2
      = cntBits v1 6 0 := by
    show (valGo (encWords v1 6 0 dat1) 6 0 initBlock 0 0).2.2 = cntBits v1 6 0
    rw [N1, Nat.zero_add]
  rw [hvalid1, hcnt1, if_pos (cntBits_ne_zero v1 hv1 hv1n)]
  generalize hW1 : (0x552aaaaa * 2 ^ (32 * 3078)
    + valBits (modulate false (wordEmissions (encWords v1 6 0 dat1))))
    % 2 ^ 32 = W1
  have hW1lt : W1 < 2 ^ 32 := by
    rw [← hW1]
    exact Nat.mod_lt _ (by norm_num)
  rw [show (197105 : Nat)
    = 197073 + (List.replicate 32 false).length from rfl]
  rw [decLoop_scan (List.replicate 32 false) (lemmings_read_mfm dat2 v2)
    W1 98544
    { block := (validateSectors (encWords v1 6 0 dat1) initBlock 0).1,
      valid := v1,
      bitoff := 0,
      tested := scanPositions 0 16,
      syncs := [0],
      eos := false }
    197073 hW1lt hv163 (zeros_clear W1)]
  simp only [List.length_replicate]
  have hreg : (W1 * 2 ^ 32 + valBits (List.replicate 32 false)) % 2 ^ 32
      = 0 := by
    rw [valBits_replicate_false, Nat.add_zero, Nat.mul_mod_left]
  rw [hreg]
  rw [show (98544 : Nat) + 32 = 98576 from rfl]
  rw [show (197073 : Nat) = 197057 + 16 from rfl]
  rw [show lemmings_read_mfm dat2 v2
    = lemmings_read_mfm dat2 v2 ++ [] from (List.append_nil _).symm]
  rw [decLoop_attempt dat2 v2 [] 0 98576
    { block := (validateSectors (encWords v1 6 0 dat1) initBlock 0).1,
      valid := v1,
      bitoff := 0,
      tested := scanPositions 0 16 ++ scanPositions 98544 32,
      syncs := [0],
      eos := false }
    197057 hd2 hb2 (by norm_num) (by norm_num)
    (by show v1 ≠ 63; exact hv163) hclear_zero]
  rw [show (197057 : Nat) = 197056 + 1 from rfl, decLoop_eos]
  obtain ⟨L2, V2, N2, OUT2, MID2⟩ := valGo_encWords v2 6 0 dat2
    (encWords v2 6 0 dat2)
    (validateSectors (encWords v1 6 0 dat1) initBlock 0).1 v1 0
    (by rw [Nat.zero_mul, List.drop_zero]) (by omega) L1 (by omega)
  have hvalid2 : (validateSectors (encWords v2 6 0 dat2)
      (validateSectors (encWords v1 6 0 dat1) initBlock 0).1 v1).2.1
      = v1 ||| v2 := by
    show (valGo (encWords v2 6 0 dat2) 6 0
      (validateSectors (encWords v1 6 0 dat1) initBlock 0).1 v1 0).2.1 = _
    rw [V2, maskBits_id v2 hv2]
  have hcnt2 : (validateSectors (encWords v2 6 0 dat2)
      (validateSectors (encWords v1 6 0 dat1) initBlock 0).1 v1).2.2
      = cntBits v2 6 0 := by
    show (valGo (encWords v2 6 0 dat2) 6 0
      (validateSectors (encWords v1 6 0 dat1) initBlock 0).1 v1 0).2.2 = _
    rw [N2, Nat.zero_add]
  rw [hvalid2, hcnt2, if_pos (cntBits_ne_zero v2 hv2 hv2n)]
  rw [List.append_assoc]
  rfl

/-! ## Claim theorems -/

/-- C1 (corrected): encoding a 6-sector buffer with validity mask V and
decoding the resulting stream yields a buffer equal to the input at every
sector whose bit of V is set, the sentinel-filled content at every sector
whose bit is unset, and a recovered validity mask exactly V — provided
V ≠ 0.  At V = 0 the decoder instead returns the explicit no-data result
and yields no buffer at all (see the counterexample theorem). -/
theorem C1_roundtrip (dat : List Nat) (v : Nat) (th : TrackHeader)
    (hdat : dat.length = 3072) (hbdat : ∀ x ∈ dat, x < 2 ^ 16)
    (hv : v < 64) (hv0 : v ≠ 0) :
    ∃ block th2,
      lemmings_write_mfm (mkStream (lemmings_read_mfm dat v)) th
          = some (block, th2)
      ∧ th2.valid_map = v
      ∧ (∀ i, i < 6 → v.testBit i = true →
          slot block i = (dat.drop (512 * i)).take 512)
      ∧ (∀ i, i < 6 → v.testBit i = false →
          slot block i = slot initBlock i) := by
  have hdec := decodeRun_enc dat v th hdat hbdat hv
  obtain ⟨L, V, N, OUT, MID⟩ := valGo_encWords v 6 0 dat (encWords v 6 0 dat)
    initBlock 0 0 (by rw [Nat.zero_mul, List.drop_zero]) (by omega)
    initBlock_length (by omega)
  refine ⟨(validateSectors (encWords v 6 0 dat) initBlock 0).1,
    { th with
      data_bitoff := 0,
      bytes_per_sector := 1024,
      nr_sectors := 6,
      len := 6 * 1024,
      valid_map := v }, ?_, rfl, ?_, ?_⟩
  · rw [show lemmings_write_mfm (mkStream (lemmings_read_mfm dat v)) th
      = (if (decodeRun (mkStream (lemmings_read_mfm dat v)) th).valid = 0
        then none
        else some ((decodeRun (mkStream (lemmings_read_mfm dat v)) th).block,
          { th with
            data_bitoff :=
              (decodeRun (mkStream (lemmings_read_mfm dat v)) th).bitoff,
            bytes_per_sector := 1024,
            nr_sectors := 6,
            len := 6 * 1024,
            valid_map :=
              (decodeRun (mkStream (lemmings_read_mfm dat v)) th).valid })
        : Option (List Nat × TrackHeader)) from rfl]
    rw [hdec]
    show (if v = 0 then none
      else some ((validateSectors (encWords v 6 0 dat) initBlock 0).1,
        { th with
          data_bitoff := if v = 0 then th.data_bitoff else 0,
          bytes_per_sector := 1024,
          nr_sectors := 6,
          len := 6 * 1024,
          valid_map := v })) = _
    rw [if_neg hv0, if_neg hv0]
  · intro i hi hbit
    have h2 : ¬ v &&& 1 <<< i = 0 := by
      rw [and_shift_eq_zero]
      simp [hbit]
    show slot (valGo (encWords v 6 0 dat) 6 0 initBlock 0 0).1 i = _
    rw [MID i (by omega) (by omega), if_neg h2, Nat.sub_zero]
  · intro i hi hbit
    have h2 : v &&& 1 <<< i = 0 := (and_shift_eq_zero v i).mpr hbit
    show slot (valGo (encWords v 6 0 dat) 6 0 initBlock 0 0).1 i = _
    rw [MID i (by omega) (by omega), if_pos h2]

/-- C1 witness: the corrected round trip instantiated at the all-zero
buffer with validity mask 1. -/
theorem C1_roundtrip_witness :
    (List.replicate 3072 (0 : Nat)).length = 3072
    ∧ (1 : Nat) < 64 ∧ (1 : Nat) ≠ 0
    ∧ ∃ block th2,
        lemmings_write_mfm
            (mkStream (lemmings_read_mfm (List.replicate 3072 0) 1))
            ⟨0, 0, 0, 0, 0, 0⟩ = some (block, th2)
        ∧ th2.valid_map = 1
        ∧ (∀ i, i < 6 → (1 : Nat).testBit i = true →
            slot block i = ((List.replicate 3072 (0 : Nat)).drop
              (512 * i)).take 512)
        ∧ (∀ i, i < 6 → (1 : Nat).testBit i = false →
            slot block i = slot initBlock i) :=
  ⟨by rw [List.length_replicate], by decide, by decide,
    C1_roundtrip (List.replicate 3072 0) 1 ⟨0, 0, 0, 0, 0, 0⟩
      (by rw [List.length_replicate])
      (by intro x hx; rw [List.eq_of_mem_replicate hx]; norm_num)
      (by decide) (by decide)⟩

/-- C1 counterexample: at validity mask 0 the decoder frees the buffer and
returns the no-data result, so the originally claimed round trip (which
promises a returned buffer with recovered mask 0) fails at V = 0. -/
theorem C1_counterexample :
    lemmings_write_mfm
        (mkStream (lemmings_read_mfm (List.replicate 3072 0) 0))
        ⟨0, 0, 0, 0, 0, 0⟩ = none := by
  rw [show lemmings_write_mfm
      (mkStream (lemmings_read_mfm (List.replicate 3072 0) 0))
      ⟨0, 0, 0, 0, 0, 0⟩
    = (if (decodeRun (mkStream (lemmings_read_mfm (List.replicate 3072 0) 0))
        ⟨0, 0, 0, 0, 0, 0⟩).valid = 0
      then none
      else some ((decodeRun (mkStream (lemmings_read_mfm
          (List.replicate 3072 0) 0)) ⟨0, 0, 0, 0, 0, 0⟩).block,
        { data_bitoff := (decodeRun (mkStream (lemmings_read_mfm
            (List.replicate 3072 0) 0)) ⟨0, 0, 0, 0, 0, 0⟩).bitoff,
          total_bits := 0,
          bytes_per_sector := 1024,
          nr_sectors := 6,
          len := 6 * 1024,
          valid_map := (decodeRun (mkStream (lemmings_read_mfm
            (List.replicate 3072 0) 0)) ⟨0, 0, 0, 0, 0, 0⟩).valid })
      : Option (List Nat × TrackHeader)) from rfl]
  rw [decodeRun_enc (List.replicate 3072 0) 0 ⟨0, 0, 0, 0, 0, 0⟩
    (by rw [List.length_replicate])
    (by intro x hx; rw [List.eq_of_mem_replicate hx]; norm_num) (by decide)]
  rfl

/-- C2: for a sector whose validity bit is unset, the encoder emits as the
checksum word of that sector (on both the even and the odd plane) the
bitwise complement of the 16-bit wraparound sum of its 512 data words;
the complement never equals the true sum (for any body), so re-validating
the encoded word sequence independently re-derives invalid for that
sector. -/
theorem C2_checksum_inversion (dat block : List Nat) (v i : Nat)
    (hi : i < 6) (hv : v < 64) (hbit : v.testBit i = false)
    (hdat : dat.length = 3072) (hblock : block.length = 3072) :
    (lemmingsEmissions dat v)[2 + 2 * (513 * i)]?
        = some ⟨.even, 16, cmpl16 (csum16 ((dat.drop (512 * i)).take 512))⟩
    ∧ (lemmingsEmissions dat v)[2 + (2 * (513 * i) + 1)]?
        = some ⟨.odd, 16, cmpl16 (csum16 ((dat.drop (512 * i)).take 512))⟩
    ∧ cmpl16 (csum16 ((dat.drop (512 * i)).take 512))
        ≠ csum16 ((dat.drop (512 * i)).take 512)
    ∧ ((validateSectors (encWords v 6 0 dat) block 0).2.1).testBit i
        = false := by
  have hand : v &&& 1 <<< (0 + i) = 0 := by
    rw [Nat.zero_add]
    exact (and_shift_eq_zero v i).mpr hbit
  have hgw : (encWords v 6 0 dat)[513 * i]?
      = some (cmpl16 (csum16 ((dat.drop (512 * i)).take 512))) := by
    rw [show 513 * i = 513 * i + 0 from rfl, ← List.getElem?_drop]
    rw [encWords_drop v i 6 0 dat (by omega) (by omega)]
    rw [show 6 - i = (5 - i) + 1 from by omega]
    rw [show encWords v ((5 - i) + 1) (0 + i) (dat.drop (512 * i))
      = (if v &&& 1 <<< (0 + i) = 0
          then cmpl16 (csum16 ((dat.drop (512 * i)).take 512))
          else csum16 ((dat.drop (512 * i)).take 512))
        :: ((dat.drop (512 * i)).take 512
          ++ encWords v (5 - i) (0 + i + 1) ((dat.drop (512 * i)).drop 512))
      from rfl]
    rw [if_pos hand]
    exact List.getElem?_cons_zero
  refine ⟨?_, ?_, cmpl16_ne _ (csum16_lt _), ?_⟩
  · rw [show lemmingsEmissions dat v
      = ⟨.raw, 16, 0x4489⟩ :: ⟨.all, 16, 0xf000⟩ :: secEmit v 6 0 dat
      from rfl]
    rw [show 2 + 2 * (513 * i) = 2 * (513 * i) + 1 + 1 from by ring]
    simp only [List.getElem?_cons_succ]
    rw [secEmit_eq_wordEmissions, wordEmissions_even_get, hgw]
    rfl
  · rw [show lemmingsEmissions dat v
      = ⟨.raw, 16, 0x4489⟩ :: ⟨.all, 16, 0xf000⟩ :: secEmit v 6 0 dat
      from rfl]
    rw [show 2 + (2 * (513 * i) + 1) = 2 * (513 * i) + 1 + 1 + 1 from by ring]
    simp only [List.getElem?_cons_succ]
    rw [secEmit_eq_wordEmissions, wordEmissions_odd_get, hgw]
    rfl
  · obtain ⟨L, V, N, OUT, MID⟩ := valGo_encWords v 6 0 dat
      (encWords v 6 0 dat) block 0 0 (by rw [Nat.zero_mul, List.drop_zero])
      (by omega) hblock (by omega)
    show ((valGo (encWords v 6 0 dat) 6 0 block 0 0).2.1).testBit i = false
    rw [V, Nat.zero_or, maskBits_id v hv]
    exact hbit

/-- C2 witness: the checksum-inversion law at a concrete buffer, mask and
sector index. -/
theorem C2_checksum_inversion_witness :
    (0 : Nat) < 6 ∧ (0 : Nat) < 64 ∧ (0 : Nat).testBit 0 = false
    ∧ (List.replicate 3072 (0 : Nat)).length = 3072
    ∧ initBlock.length = 3072
    ∧ ((lemmingsEmissions (List.replicate 3072 0) 0)[2 + 2 * (513 * 0)]?
        = some ⟨.even, 16, cmpl16 (csum16
            (((List.replicate 3072 (0 : Nat)).drop (512 * 0)).take 512))⟩
      ∧ (lemmingsEmissions (List.replicate 3072 0) 0)[2 + (2 * (513 * 0)
          + 1)]?
        = some ⟨.odd, 16, cmpl16 (csum16
            (((List.replicate 3072 (0 : Nat)).drop (512 * 0)).take 512))⟩
      ∧ cmpl16 (csum16 (((List.replicate 3072 (0 : Nat)).drop
            (512 * 0)).take 512))
        ≠ csum16 (((List.replicate 3072 (0 : Nat)).drop (512 * 0)).take 512)
      ∧ ((validateSectors (encWords 0 6 0 (List.replicate 3072 0))
          initBlock 0).2.1).testBit 0 = false) :=
  ⟨by decide, by decide, by decide, by rw [List.length_replicate],
    initBlock_length,
    C2_checksum_inversion (List.replicate 3072 0) initBlock 0 0 (by decide)
      (by decide) (by decide) (by rw [List.length_replicate])
      initBlock_length⟩

/-- C3 (corrected): at a candidate alignment whose following 32 bits do
not equal the second mark word, the decoder resumes the bit-by-bit scan at
the position after those 32 confirmation bits: the candidate position
itself was tested, but the 32 consumed confirmation-bit positions are
skipped and never re-tested as candidate alignments (the original claim
that no bit position is skipped fails; see the counterexample theorem). -/
theorem C3_resync (b : Bool) (l32 rest : List Bool) (w p : Nat)
    (st : DecState) (fuel : Nat) (hw : w < 2 ^ 32) (hl : l32.length = 32)
    (hv : st.valid ≠ 63)
    (hmatch : ((w * 2 + (if b then 1 else 0)) % 2 ^ 32) % 2 ^ 16 = 0x4489)
    (hfail : valBits l32 ≠ 0x552aaaaa) :
    decLoop (fuel + 1) ⟨b :: (l32 ++ rest), w, p⟩ st
      = decLoop fuel ⟨rest, valBits l32, p + 1 + 32⟩
          { st with tested := st.tested ++ [p + 1] } := by
  rw [decLoop_succ, if_neg hv, if_neg (not_not_intro hmatch)]
  have hVlt : valBits l32 < 2 ^ 32 := by
    have h := valBits_lt l32
    rw [hl] at h
    exact h
  have h32 : stream_next_bits 32
      ⟨l32 ++ rest, (w * 2 + (if b then 1 else 0)) % 2 ^ 32, p + 1⟩
      = some ⟨rest, valBits l32, p + 1 + 32⟩ := by
    have hs := stream_next_bits_append l32 rest
      ((w * 2 + (if b then 1 else 0)) % 2 ^ 32) (p + 1)
      (Nat.mod_lt _ (by norm_num))
    rw [hl] at hs
    rw [hs]
    have hreg : ((w * 2 + (if b then 1 else 0)) % 2 ^ 32 * 2 ^ 32
        + valBits l32) % 2 ^ 32 = valBits l32 := by
      rw [Nat.mul_comm, Nat.mul_add_mod, Nat.mod_eq_of_lt hVlt]
    rw [hreg]
  rw [h32]
  show (if valBits l32 ≠ 0x552aaaaa then
      decLoop fuel ⟨rest, valBits l32, p + 1 + 32⟩
        { st with tested := st.tested ++ [p + 1] }
    else _) = _
  rw [if_pos hfail]

/-- C3 witness: the corrected resynchronization step at a concrete
register, candidate bit and 32-bit confirmation block. -/
theorem C3_resync_witness :
    (0x2244 : Nat) < 2 ^ 32 ∧ (natBits 32 0).length = 32
    ∧ (initState ⟨0, 0, 0, 0, 0, 0⟩).valid ≠ 63
    ∧ ((0x2244 * 2 + (if true then 1 else 0)) % 2 ^ 32) % 2 ^ 16 = 0x4489
    ∧ valBits (natBits 32 0) ≠ 0x552aaaaa
    ∧ decLoop (0 + 1) ⟨true :: (natBits 32 0 ++ []), 0x2244, 0⟩
        (initState ⟨0, 0, 0, 0, 0, 0⟩)
      = decLoop 0 ⟨[], valBits (natBits 32 0), 0 + 1 + 32⟩
          { initState ⟨0, 0, 0, 0, 0, 0⟩ with
            tested := (initState ⟨0, 0, 0, 0, 0, 0⟩).tested ++ [0 + 1] } :=
  ⟨by decide, by decide, by decide, by decide, by decide,
    C3_resync true (natBits 32 0) [] 0x2244 0 (initState ⟨0, 0, 0, 0, 0, 0⟩)
      0 (by decide) (by decide) (by decide) (by decide) (by decide)⟩

/-- C3 counterexample: a 48-bit stream whose first 16 bits are the mark
word and whose 32 confirmation bits fail the check.  The scan then
resumes after the confirmation bits: only positions 1..16 are ever tested
as candidate alignments, and position 17 (a bit position of the stream
that a skip-free re-test would reach) is never tested before the stream
exhausts. -/
theorem C3_counterexample :
    (mkStream (natBits 16 0x4489 ++ (natBits 16 0x4489
      ++ natBits 16 0))).bits.length = 48
    ∧ (decodeRun (mkStream (natBits 16 0x4489 ++ (natBits 16 0x4489
        ++ natBits 16 0))) ⟨0, 0, 0, 0, 0, 0⟩).eos = true
    ∧ (decodeRun (mkStream (natBits 16 0x4489 ++ (natBits 16 0x4489
        ++ natBits 16 0))) ⟨0, 0, 0, 0, 0, 0⟩).tested = scanPositions 0 16
    ∧ 17 ∉ (decodeRun (mkStream (natBits 16 0x4489 ++ (natBits 16 0x4489
        ++ natBits 16 0))) ⟨0, 0, 0, 0, 0, 0⟩).tested := by decide

/-- C4 (corrected): after a confirmed synchronization the decoder
demodulates exactly 6*513 sixteen-bit logical words, but each logical
word is built from ONE 32-bit stream read, not two: the upper half of
that single read is the even plane and its lower half the odd plane,
interleaved so the even plane occupies the odd-position bits and the odd
plane the even-position bits of the reconstructed word (the big-endian
cell representation makes the final `htons` the identity; see the
counterexample theorem for the one-read-versus-two refutation). -/
theorem C4_demodulate (s : MStream) :
    (∀ raw t, demodBlock 3078 s = some (raw, t) →
      raw.length = 6 * 513 ∧ t.pos = s.pos + 32 * (6 * 513)
      ∧ s.bits.length = t.bits.length + 32 * (6 * 513))
    ∧ (∀ w t, demodStep s = some (w, t) →
      stream_next_bits 32 s = some t
      ∧ w = demod32 t.word
      ∧ (∀ k, k < 8 →
          (demod32 t.word).testBit (2 * k + 1)
              = (t.word / 2 ^ 16 % 2 ^ 16).testBit (2 * k)
          ∧ (demod32 t.word).testBit (2 * k)
              = (t.word % 2 ^ 16).testBit (2 * k))) := by
  constructor
  · intro raw t h
    have h2 := demodBlock_len 3078 s raw t h
    exact ⟨by omega, by omega, by omega⟩
  · intro w t h
    have h2 := demodStep_some s w t h
    exact ⟨h2.1, h2.2, fun k hk => demod32_testBit t.word k hk⟩

/-- C4 witness: the single-read demodulation shape at a concrete 32-bit
stream. -/
theorem C4_demodulate_witness :
    demodStep (mkStream (natBits 32 0)) = some (0, ⟨[], 0, 32⟩)
    ∧ (stream_next_bits 32 (mkStream (natBits 32 0)) = some ⟨[], 0, 32⟩
      ∧ (0 : Nat) = demod32 (⟨[], 0, 32⟩ : MStream).word
      ∧ (∀ k, k < 8 →
          (demod32 (⟨[], 0, 32⟩ : MStream).word).testBit (2 * k + 1)
              = ((⟨[], 0, 32⟩ : MStream).word / 2 ^ 16
                  % 2 ^ 16).testBit (2 * k)
          ∧ (demod32 (⟨[], 0, 32⟩ : MStream).word).testBit (2 * k)
              = ((⟨[], 0, 32⟩ : MStream).word % 2 ^ 16).testBit (2 * k))) :=
  ⟨by decide,
    (C4_demodulate (mkStream (natBits 32 0))).2 0 ⟨[], 0, 32⟩ (by decide)⟩

/-- C4 counterexample: one demodulated word consumes exactly 32 stream
bits.  On a stream of exactly 32 bits, demodulating one word succeeds,
while the two consecutive 32-bit reads of the original claim would need
64 bits, and a 64-bit read on this stream fails. -/
theorem C4_counterexample :
    (mkStream (natBits 32 0x552aaaaa)).bits.length = 32
    ∧ demodBlock 1 (mkStream (natBits 32 0x552aaaaa))
        = some ([0xaa00], ⟨[], 0x552aaaaa, 32⟩)
    ∧ stream_next_bits 64 (mkStream (natBits 32 0x552aaaaa)) = none := by
  decide

/-- C5: the decoder partitions the demodulated 6x513-word sequence into 6
groups of 513 words (group j starting at word index j*513), treats word 0
of the group as the expected checksum and words 1..512 as the body, and
marks sector j valid and copies its 1024 body bytes into slot j of the
output buffer exactly when the 16-bit wraparound sum of the 512 body
words equals the expected checksum word; the newly-validated counter
totals the matches. -/
theorem C5_validation (raw block : List Nat) (valid : Nat)
    (hraw : raw.length = 6 * 513) (hblock : block.length = 3072) :
    (validateSectors raw block valid).1.length = 3072
    ∧ (∀ j, j < 6 →
        (csum16 ((raw.drop (j * 513 + 1)).take 512)
            = (raw.drop (j * 513)).headD 0 →
          slot (validateSectors raw block valid).1 j
              = (raw.drop (j * 513 + 1)).take 512
          ∧ (validateSectors raw block valid).2.1.testBit j = true)
        ∧ (csum16 ((raw.drop (j * 513 + 1)).take 512)
            ≠ (raw.drop (j * 513)).headD 0 →
          slot (validateSectors raw block valid).1 j = slot block j
          ∧ (validateSectors raw block valid).2.1.testBit j
              = valid.testBit j))
    ∧ (validateSectors raw block valid).2.2 = matchCount raw 6 0 := by
  obtain ⟨L, OUT, MID, N⟩ := valGo_char raw (by omega) 6 0 block valid 0
    hblock (by omega)
  refine ⟨L, ?_, ?_⟩
  · intro j hj
    exact MID j (by omega) (by omega)
  · show (valGo raw 6 0 block valid 0).2.2 = matchCount raw 6 0
    rw [N, Nat.zero_add]

/-- C5 witness: the validation characterization at a concrete word list
and buffer. -/
theorem C5_validation_witness :
    (List.replicate 3078 (0 : Nat)).length = 6 * 513
    ∧ initBlock.length = 3072
    ∧ ((validateSectors (List.replicate 3078 0) initBlock 0).1.length = 3072
      ∧ (∀ j, j < 6 →
          (csum16 (((List.replicate 3078 (0 : Nat)).drop
                (j * 513 + 1)).take 512)
              = ((List.replicate 3078 (0 : Nat)).drop (j * 513)).headD 0 →
            slot (validateSectors (List.replicate 3078 0) initBlock 0).1 j
                = ((List.replicate 3078 (0 : Nat)).drop (j * 513 + 1)).take 512
            ∧ (validateSectors (List.replicate 3078 0)
                initBlock 0).2.1.testBit j = true)
          ∧ (csum16 (((List.replicate 3078 (0 : Nat)).drop
                (j * 513 + 1)).take 512)
              ≠ ((List.replicate 3078 (0 : Nat)).drop (j * 513)).headD 0 →
            slot (validateSectors (List.replicate 3078 0) initBlock 0).1 j
                = slot initBlock j
            ∧ (validateSectors (List.replicate 3078 0)
                initBlock 0).2.1.testBit j = (0 : Nat).testBit j))
      ∧ (validateSectors (List.replicate 3078 0) initBlock 0).2.2
          = matchCount (List.replicate 3078 0) 6 0) :=
  ⟨by rw [List.length_replicate], initBlock_length,
    C5_validation (List.replicate 3078 0) initBlock 0
      (by rw [List.length_replicate]) initBlock_length⟩

/-- C6: the decoder returns the explicit no-data result exactly when the
stream is exhausted with zero sectors ever validated; otherwise it
returns the buffer and finalizes the header with sector size 1024, sector
count 6, total length 6144 bytes, the stored validity bitmask and the
recorded data bit offset. -/
theorem C6_termination (s : MStream) (th : TrackHeader) :
    (lemmings_write_mfm s th = none
      ↔ (decodeRun s th).valid = 0 ∧ (decodeRun s th).eos = true)
    ∧ (∀ block th2, lemmings_write_mfm s th = some (block, th2) →
        block = (decodeRun s th).block
        ∧ th2.bytes_per_sector = 1024
        ∧ th2.nr_sectors = 6
        ∧ th2.len = 6144
        ∧ th2.valid_map = (decodeRun s th).valid
        ∧ th2.data_bitoff = (decodeRun s th).bitoff) := by
  have hunf : lemmings_write_mfm s th
      = (if (decodeRun s th).valid = 0 then none
        else some ((decodeRun s th).block,
          { th with
            data_bitoff := (decodeRun s th).bitoff,
            bytes_per_sector := 1024,
            nr_sectors := 6,
            len := 6 * 1024,
            valid_map := (decodeRun s th).valid })) := rfl
  constructor
  · constructor
    · intro h
      rw [hunf] at h
      by_cases hv : (decodeRun s th).valid = 0
      · refine ⟨hv, ?_⟩
        have h2 := decLoop_fuel (s.bits.length + 1) s (initState th)
          (by omega)
        rcases h2 with h2 | h2
        · exact h2
        · have h3 : (decodeRun s th).valid = 63 := h2
          omega
      · rw [if_neg hv] at h
        cases h
    · intro h
      rw [hunf, if_pos h.1]
  · intro block th2 h
    rw [hunf] at h
    by_cases hv : (decodeRun s th).valid = 0
    · rw [if_pos hv] at h
      cases h
    · rw [if_neg hv] at h
      have h2 := Option.some.inj h
      injection h2 with h3 h4
      exact ⟨h3.symm, by rw [← h4], by rw [← h4], by rw [← h4],
        by rw [← h4], by rw [← h4]⟩

/-- C6 witness: on an empty stream nothing validates and the decoder
reports the no-data result with the stream exhausted. -/
theorem C6_termination_witness :
    lemmings_write_mfm (mkStream []) ⟨5, 0, 0, 0, 0, 0⟩ = none
    ∧ (decodeRun (mkStream []) ⟨5, 0, 0, 0, 0, 0⟩).valid = 0
    ∧ (decodeRun (mkStream []) ⟨5, 0, 0, 0, 0, 0⟩).eos = true :=
  ⟨by decide,
    ((C6_termination (mkStream []) ⟨5, 0, 0, 0, 0, 0⟩).1.mp (by decide)).1,
    ((C6_termination (mkStream []) ⟨5, 0, 0, 0, 0, 0⟩).1.mp (by decide)).2⟩

/-- C7: a synchronization attempt's data start offset becomes the track's
authoritative data-bit-offset exactly when at least one sector validated
in that attempt (single-attempt conjunct: the offset stays at its prior
value when the mask is empty and becomes the attempt's offset otherwise);
with two successful attempts (two encoded images separated by 32 zero
bits) both record, and the final offset is that of the last attempt. -/
theorem C7_offset (dat1 dat2 : List Nat) (v1 v2 : Nat) (th : TrackHeader)
    (hd1 : dat1.length = 3072) (hb1 : ∀ x ∈ dat1, x < 2 ^ 16)
    (hd2 : dat2.length = 3072) (hb2 : ∀ x ∈ dat2, x < 2 ^ 16)
    (hv1 : v1 < 64) (hv2 : v2 < 64) (hv1n : v1 ≠ 0) (hv2n : v2 ≠ 0)
    (hv163 : v1 ≠ 63) :
    (∀ dat v th2, dat.length = 3072 → (∀ x ∈ dat, x < 2 ^ 16) → v < 64 →
      (decodeRun (mkStream (lemmings_read_mfm dat v)) th2).bitoff
        = if v = 0 then th2.data_bitoff else 0)
    ∧ (decodeRun (mkStream (lemmings_read_mfm dat1 v1
        ++ (List.replicate 32 false ++ lemmings_read_mfm dat2 v2))) th).syncs
        = [0, 98576]
    ∧ (decodeRun (mkStream (lemmings_read_mfm dat1 v1
        ++ (List.replicate 32 false
          ++ lemmings_read_mfm dat2 v2))) th).bitoff
        = 98576 := by
  have htwo := decodeRun_two dat1 dat2 v1 v2 th hd1 hb1 hd2 hb2 hv1 hv2
    hv1n hv2n hv163
  refine ⟨?_, ?_, ?_⟩
  · intro dat v th2 hdat hbdat hv
    rw [decodeRun_enc dat v th2 hdat hbdat hv]
  · rw [htwo]
  · rw [htwo]

/-- C7 witness: the offset rule at two concrete encoded images. -/
theorem C7_offset_witness :
    (1 : Nat) ≠ 0 ∧ (2 : Nat) ≠ 0 ∧ (1 : Nat) ≠ 63
    ∧ (decodeRun (mkStream (lemmings_read_mfm (List.replicate 3072 0) 1
        ++ (List.replicate 32 false
          ++ lemmings_read_mfm (List.replicate 3072 0) 2)))
        ⟨0, 0, 0, 0, 0, 0⟩).syncs = [0, 98576]
    ∧ (decodeRun (mkStream (lemmings_read_mfm (List.replicate 3072 0) 1
        ++ (List.replicate 32 false
          ++ lemmings_read_mfm (List.replicate 3072 0) 2)))
        ⟨0, 0, 0, 0, 0, 0⟩).bitoff = 98576 :=
  ⟨by decide, by decide, by decide,
    (C7_offset (List.replicate 3072 0) (List.replicate 3072 0) 1 2
      ⟨0, 0, 0, 0, 0, 0⟩ (by rw [List.length_replicate])
      (by intro x hx; rw [List.eq_of_mem_replicate hx]; norm_num)
      (by rw [List.length_replicate])
      (by intro x hx; rw [List.eq_of_mem_replicate hx]; norm_num)
      (by decide) (by decide) (by decide) (by decide) (by decide)).2.1,
    (C7_offset (List.replicate 3072 0) (List.replicate 3072 0) 1 2
      ⟨0, 0, 0, 0, 0, 0⟩ (by rw [List.length_replicate])
      (by intro x hx; rw [List.eq_of_mem_replicate hx]; norm_num)
      (by rw [List.length_replicate])
      (by intro x hx; rw [List.eq_of_mem_replicate hx]; norm_num)
      (by decide) (by decide) (by decide) (by decide) (by decide)).2.2⟩

/-- C8: on a confirmed synchronization match (candidate mark word followed
by the matching 32 confirmation bits and a full data payload), the
recorded candidate data start offset equals the current index-relative
bit offset — the position right after the consumed mark word — backdated
by the full 16 bits of that mark word, in 32-bit unsigned arithmetic
(the source computes it as `s->index_offset - 15` where `index_offset`
is the offset of the last consumed mark bit). -/
theorem C8_backdate (ws : List Nat) (rest : List Bool) (W p1 : Nat)
    (st : DecState) (hW : W < 2 ^ 32) (hv : st.valid ≠ 63)
    (h16 : (W * 2 + 1) % 2 ^ 32 % 2 ^ 16 = 0x4489)
    (hws : ∀ x ∈ ws, x < 2 ^ 16) (hlen : ws.length = 3078) :
    (decLoop 1 ⟨true :: (mfmClocked true (natBits 16 0xf000)
        ++ (modulate false (wordEmissions ws) ++ rest)), W, p1⟩ st).syncs
      = st.syncs ++ [(p1 + 1 + (2 ^ 32 - 16)) % 2 ^ 32] := by
  show (decLoop (0 + 1) ⟨true :: (mfmClocked true (natBits 16 0xf000)
    ++ (modulate false (wordEmissions ws) ++ rest)), W, p1⟩ st).syncs = _
  rw [decLoop_confirm ws rest W p1 st 0 hW hv h16 hws hlen]
  show st.syncs ++ [(p1 + 1 - 1 + (2 ^ 32 - 15)) % 2 ^ 32] = _
  rw [show p1 + 1 - 1 + (2 ^ 32 - 15)
    = p1 + 1 + (2 ^ 32 - 16) from by omega]

/-- C8 witness: the backdated offset at a concrete confirmed match ending
at stream position 16. -/
theorem C8_backdate_witness :
    ((0x2244 : Nat) * 2 + 1) % 2 ^ 32 % 2 ^ 16 = 0x4489
    ∧ (encWords 1 6 0 (List.replicate 3072 0)).length = 3078
    ∧ (decLoop 1 ⟨true :: (mfmClocked true (natBits 16 0xf000)
        ++ (modulate false (wordEmissions (encWords 1 6 0
          (List.replicate 3072 0))) ++ [])), 0x2244, 15⟩
        (initState ⟨0, 0, 0, 0, 0, 0⟩)).syncs
      = (initState ⟨0, 0, 0, 0, 0, 0⟩).syncs
        ++ [(15 + 1 + (2 ^ 32 - 16)) % 2 ^ 32] :=
  ⟨by decide,
    by rw [encWords_length 1 6 0 _ (by rw [List.length_replicate])],
    C8_backdate (encWords 1 6 0 (List.replicate 3072 0)) [] 0x2244 15
      (initState ⟨0, 0, 0, 0, 0, 0⟩) (by norm_num)
      (by show (0 : Nat) ≠ 63; decide) (by decide)
      (encWords_bound 1 6 0 _ (by
        intro x hx
        rw [List.eq_of_mem_replicate hx]
        norm_num))
      (by rw [encWords_length 1 6 0 _ (by rw [List.length_replicate])])⟩

/-- C9: the encoder's emission sequence is exactly the 16-bit mark word as
raw bits, then the second mark word (whose fixed rendered raw pattern is
the 32 cells of 0x552aaaaa, i.e. the documented 0x552a,0xaaaa pair), then
for each of the 6 sectors in order the checksum word as two identical
full-width emissions tagged even and odd, followed by the 512 data words
in original sequence order, each emitted once per plane tag. -/
theorem C9_emissions (dat : List Nat) (v : Nat) :
    lemmingsEmissions dat v = specEmissions dat v
    ∧ mfmClocked true (natBits 16 0xf000) = natBits 32 0x552aaaaa := by
  constructor
  · show (⟨.raw, 16, 0x4489⟩ : Emission) :: ⟨.all, 16, 0xf000⟩
      :: secEmit v 6 0 dat = _
    rw [secEmit_range v 6 0 dat]
    rw [show specEmissions dat v = ⟨.raw, 16, 0x4489⟩ :: ⟨.all, 16, 0xf000⟩
      :: ((List.range 6).map
        (fun t => secSpec v t ((dat.drop (512 * t)).take 512))).flatten
      from rfl]
    have hmap : (List.range 6).map
          (fun t => secSpec v (0 + t) ((dat.drop (512 * t)).take 512))
        = (List.range 6).map
          (fun t => secSpec v t ((dat.drop (512 * t)).take 512)) := by
      apply List.map_congr_left
      intro t _
      rw [Nat.zero_add]
    rw [hmap]
  · decide

/-- C10: within a single decode call the validity bitmask is monotonically
non-decreasing across loop iterations (a set bit is never cleared); with
two successful attempts the returned mask is the union of the two masks,
a sector that re-validates in the later attempt holds the later data, and
a sector only the first attempt validated keeps the first data. -/
theorem C10_monotone (dat1 dat2 : List Nat) (v1 v2 : Nat)
    (th : TrackHeader)
    (hd1 : dat1.length = 3072) (hb1 : ∀ x ∈ dat1, x < 2 ^ 16)
    (hd2 : dat2.length = 3072) (hb2 : ∀ x ∈ dat2, x < 2 ^ 16)
    (hv1 : v1 < 64) (hv2 : v2 < 64) (hv1n : v1 ≠ 0) (hv2n : v2 ≠ 0)
    (hv163 : v1 ≠ 63) :
    (∀ fuel s st i, st.valid.testBit i = true →
      (decLoop fuel s st).valid.testBit i = true)
    ∧ (decodeRun (mkStream (lemmings_read_mfm dat1 v1
        ++ (List.replicate 32 false ++ lemmings_read_mfm dat2 v2))) th).valid
        = v1 ||| v2
    ∧ (∀ i, i < 6 → v2.testBit i = true →
        slot (decodeRun (mkStream (lemmings_read_mfm dat1 v1
          ++ (List.replicate 32 false
            ++ lemmings_read_mfm dat2 v2))) th).block i
          = (dat2.drop (512 * i)).take 512)
    ∧ (∀ i, i < 6 → v1.testBit i = true → v2.testBit i = false →
        slot (decodeRun (mkStream (lemmings_read_mfm dat1 v1
          ++ (List.replicate 32 false
            ++ lemmings_read_mfm dat2 v2))) th).block i
          = (dat1.drop (512 * i)).take 512) := by
  have htwo := decodeRun_two dat1 dat2 v1 v2 th hd1 hb1 hd2 hb2 hv1 hv2
    hv1n hv2n hv163
  obtain ⟨L1, V1, N1, OUT1, MID1⟩ := valGo_encWords v1 6 0 dat1
    (encWords v1 6 0 dat1) initBlock 0 0
    (by rw [Nat.zero_mul, List.drop_zero]) (by omega) initBlock_length
    (by omega)
  obtain ⟨L2, V2, N2, OUT2, MID2⟩ := valGo_encWords v2 6 0 dat2
    (encWords v2 6 0 dat2)
    (validateSectors (encWords v1 6 0 dat1) initBlock 0).1 v1 0
    (by rw [Nat.zero_mul, List.drop_zero]) (by omega) L1 (by omega)
  refine ⟨decLoop_valid_mono, ?_, ?_, ?_⟩
  · rw [htwo]
  · intro i hi hbit2
    rw [htwo]
    have h2 : ¬ v2 &&& 1 <<< i = 0 := by
      rw [and_shift_eq_zero]
      simp [hbit2]
    show slot (valGo (encWords v2 6 0 dat2) 6 0
      (validateSectors (encWords v1 6 0 dat1) initBlock 0).1 v1 0).1 i = _
    rw [MID2 i (by omega) (by omega), if_neg h2, Nat.sub_zero]
  · intro i hi hbit1 hbit2
    rw [htwo]
    have h2 : v2 &&& 1 <<< i = 0 := (and_shift_eq_zero v2 i).mpr hbit2
    have h1 : ¬ v1 &&& 1 <<< i = 0 := by
      rw [and_shift_eq_zero]
      simp [hbit1]
    show slot (valGo (encWords v2 6 0 dat2) 6 0
      (validateSectors (encWords v1 6 0 dat1) initBlock 0).1 v1 0).1 i = _
    rw [MID2 i (by omega) (by omega), if_pos h2]
    show slot (valGo (encWords v1 6 0 dat1) 6 0 initBlock 0 0).1 i = _
    rw [MID1 i (by omega) (by omega), if_neg h1, Nat.sub_zero]

/-- C10 witness: monotonicity and the two-attempt union and overwrite at
concrete masks 3 and 1 (sector 0 re-validates, sector 1 keeps the first
attempt's data). -/
theorem C10_monotone_witness :
    (3 : Nat) ≠ 0 ∧ (1 : Nat) ≠ 0 ∧ (3 : Nat) ≠ 63
    ∧ (decodeRun (mkStream (lemmings_read_mfm (List.replicate 3072 0) 3
        ++ (List.replicate 32 false
          ++ lemmings_read_mfm (List.replicate 3072 0) 1)))
        ⟨0, 0, 0, 0, 0, 0⟩).valid = 3 ||| 1
    ∧ (∀ i, i < 6 → (1 : Nat).testBit i = true →
        slot (decodeRun (mkStream (lemmings_read_mfm
          (List.replicate 3072 0) 3
          ++ (List.replicate 32 false
            ++ lemmings_read_mfm (List.replicate 3072 0) 1)))
          ⟨0, 0, 0, 0, 0, 0⟩).block i
          = ((List.replicate 3072 (0 : Nat)).drop (512 * i)).take 512) :=
  ⟨by decide, by decide, by decide,
    (C10_monotone (List.replicate 3072 0) (List.replicate 3072 0) 3 1
      ⟨0, 0, 0, 0, 0, 0⟩ (by rw [List.length_replicate])
      (by
        intro x hx
        rw [List.eq_of_mem_replicate hx]
        norm_num)
      (by rw [List.length_replicate])
      (by
        intro x hx
        rw [List.eq_of_mem_replicate hx]
        norm_num)
      (by decide) (by decide) (by decide) (by decide) (by decide)).2.1,
    (C10_monotone (List.replicate 3072 0) (List.replicate 3072 0) 3 1
      ⟨0, 0, 0, 0, 0, 0⟩ (by rw [List.length_replicate])
      (by
        intro x hx
        rw [List.eq_of_mem_replicate hx]
        norm_num)
      (by rw [List.length_replicate])
      (by
        intro x hx
        rw [List.eq_of_mem_replicate hx]
        norm_num)
      (by decide) (by decide) (by decide) (by decide) (by decide)).2.2.1⟩
